import Mathlib

/-!
# TaskForge — verification of the issue-hierarchy engine

A shallow embedding, in Lean 4, of the core of the TaskForge repository
(`src/taskforge/normalizer.py`, `tree.py`, `queries.py`, `config.py`,
`jira_client.py`), together with proofs of the spec claims about it.

Python dictionaries/JSON values are modelled by the inductive type `Json`;
Python operations that can raise (`.get` on a non-dict, iterating a
non-list, joining non-strings) are modelled in `Except String`.
-/

set_option maxHeartbeats 1000000

namespace TaskForge

/-- A JSON-like Python value: `None`, booleans, integers, strings, lists and
dicts (dicts are association lists in insertion order, keys unique for
values built by the code under study). -/
inductive Json where
  | null : Json
  | bool : Bool → Json
  | num : Int → Json
  | str : String → Json
  | arr : List Json → Json
  | obj : List (String × Json) → Json
  deriving Repr, Inhabited

namespace Json

mutual

/-- Structural equality test on `Json`. -/
def beq : Json → Json → Bool
  | .null, .null => true
  | .bool a, .bool b => a == b
  | .num a, .num b => a == b
  | .str a, .str b => a == b
  | .arr a, .arr b => beqList a b
  | .obj a, .obj b => beqKvs a b
  | _, _ => false

def beqList : List Json → List Json → Bool
  | [], [] => true
  | a :: as, b :: bs => beq a b && beqList as bs
  | _, _ => false

def beqKvs : List (String × Json) → List (String × Json) → Bool
  | [], [] => true
  | (k, v) :: as, (k', v') :: bs => k == k' && beq v v' && beqKvs as bs
  | _, _ => false

end

instance : BEq Json := ⟨beq⟩

mutual

theorem beq_iff : (a b : Json) → (beq a b = true ↔ a = b)
  | .null, .null => by simp [beq]
  | .bool a, .bool b => by simp [beq]
  | .num a, .num b => by simp [beq]
  | .str a, .str b => by simp [beq]
  | .arr a, .arr b => by
    simp only [beq, arr.injEq]
    exact beqList_iff a b
  | .obj a, .obj b => by
    simp only [beq, obj.injEq]
    exact beqKvs_iff a b
  | .null, .bool _ | .null, .num _ | .null, .str _ | .null, .arr _ | .null, .obj _
  | .bool _, .null | .bool _, .num _ | .bool _, .str _ | .bool _, .arr _ | .bool _, .obj _
  | .num _, .null | .num _, .bool _ | .num _, .str _ | .num _, .arr _ | .num _, .obj _
  | .str _, .null | .str _, .bool _ | .str _, .num _ | .str _, .arr _ | .str _, .obj _
  | .arr _, .null | .arr _, .bool _ | .arr _, .num _ | .arr _, .str _ | .arr _, .obj _
  | .obj _, .null | .obj _, .bool _ | .obj _, .num _ | .obj _, .str _ | .obj _, .arr _ => by
    simp [beq]

theorem beqList_iff : (a b : List Json) → (beqList a b = true ↔ a = b)
  | [], [] => by simp [beqList]
  | a :: as, b :: bs => by
    simp only [beqList, Bool.and_eq_true, List.cons.injEq]
    exact and_congr (beq_iff a b) (beqList_iff as bs)
  | [], _ :: _ => by simp [beqList]
  | _ :: _, [] => by simp [beqList]

theorem beqKvs_iff : (a b : List (String × Json)) → (beqKvs a b = true ↔ a = b)
  | [], [] => by simp [beqKvs]
  | (k, v) :: as, (k', v') :: bs => by
    simp only [beqKvs, Bool.and_eq_true, List.cons.injEq, Prod.mk.injEq]
    constructor
    · rintro ⟨⟨h1, h2⟩, h3⟩
      exact ⟨⟨by simpa using h1, (beq_iff v v').mp h2⟩, (beqKvs_iff as bs).mp h3⟩
    · rintro ⟨⟨h1, h2⟩, h3⟩
      exact ⟨⟨by simp [h1], (beq_iff v v').mpr h2⟩, (beqKvs_iff as bs).mpr h3⟩
  | [], _ :: _ => by simp [beqKvs]
  | _ :: _, [] => by simp [beqKvs]

end

instance : LawfulBEq Json where
  eq_of_beq h := (beq_iff _ _).mp h
  rfl := (beq_iff _ _).mpr rfl

instance : DecidableEq Json :=
  fun a b => decidable_of_iff (beq a b = true) (beq_iff a b)

/-- Python truthiness: `None`, `False`, `0`, `""`, `[]`, `{}` are falsy. -/
def truthy : Json → Bool
  | .null => false
  | .bool b => b
  | .num n => n != 0
  | .str s => s ≠ ""
  | .arr xs => !xs.isEmpty
  | .obj kvs => !kvs.isEmpty

/-- `d.get(k, default)` on a value known to be a dict (first match — the
dicts built by this code have unique keys). -/
def objGet (kvs : List (String × Json)) (k : String) (d : Json) : Json :=
  match kvs.find? (fun kv => kv.1 = k) with
  | some kv => kv.2
  | none => d

/-- Python `v.get(k, default)`: succeeds on a dict, raises `AttributeError`
on anything else. -/
def pyGet (v : Json) (k : String) (d : Json) : Except String Json :=
  match v with
  | .obj kvs => .ok (objGet kvs k d)
  | _ => .error "AttributeError: get"

/-- Best-effort model of Python `str(v)` (only its totality matters for the
claims proved here: no claim inspects the text produced for non-string
values). -/
def pyStr : Json → String
  | .null => "None"
  | .bool b => if b then "True" else "False"
  | .num n => toString n
  | .str s => s
  | .arr _ => "[...]"
  | .obj _ => "{...}"

end Json

instance {ε α : Type} [DecidableEq ε] [DecidableEq α] : DecidableEq (Except ε α) :=
  fun x y =>
    match x, y with
    | .ok a, .ok b =>
      if h : a = b then isTrue (by rw [h])
      else isFalse (fun hc => h (by injection hc))
    | .error a, .error b =>
      if h : a = b then isTrue (by rw [h])
      else isFalse (fun hc => h (by injection hc))
    | .ok _, .error _ => isFalse (fun hc => Except.noConfusion hc)
    | .error _, .ok _ => isFalse (fun hc => Except.noConfusion hc)

/-- Python whitespace stripped by `str.strip()` (the ASCII part). -/
def isPyWs (c : Char) : Bool :=
  c = ' ' ∨ c = '\t' ∨ c = '\n' ∨ c = '\r' ∨ c = '\x0b' ∨ c = '\x0c'

/-- Python `s.strip()`. -/
def pyStrip (s : String) : String :=
  ((s.toList.dropWhile isPyWs).reverse.dropWhile isPyWs).reverse.asString

/-- Python `s.lower()` (ASCII). -/
def pyLower (s : String) : String := (s.toList.map Char.toLower).asString

/-- Python `s.split(sep)` for a single-character separator. -/
def splitChar (sep : Char) : List Char → List (List Char)
  | [] => [[]]
  | c :: rest =>
    let r := splitChar sep rest
    if c = sep then [] :: r
    else
      match r with
      | h :: t => (c :: h) :: t
      | [] => [[c]]

/-- `"sep".join(xs)`. -/
def joinWith (sep : String) : List String → String
  | [] => ""
  | [x] => x
  | x :: xs => x ++ sep ++ joinWith sep xs

namespace Json

theorem objGet_eq_default_or_mem {kvs : List (String × Json)} {k : String} {d v : Json}
    (h : objGet kvs k d = v) : v = d ∨ (k, v) ∈ kvs := by
  unfold objGet at h
  cases hf : kvs.find? (fun kv => kv.1 = k) with
  | none => rw [hf] at h; exact Or.inl h.symm
  | some kv =>
    rw [hf] at h
    have hmem := List.mem_of_find?_eq_some hf
    have hk := List.find?_some hf
    right
    have : kv.1 = k := by simpa using hk
    rw [← h, ← this]
    simpa using hmem

theorem sizeOf_lt_of_mem_kvs {kvs : List (String × Json)} {k : String} {v : Json}
    (h : (k, v) ∈ kvs) : sizeOf v < sizeOf (Json.obj kvs) := by
  have h1 : sizeOf (k, v) ≤ sizeOf kvs := le_of_lt (List.sizeOf_lt_of_mem h)
  have h2 : sizeOf v < sizeOf (k, v) := by
    rw [Prod.mk.sizeOf_spec]; omega
  simp only [Json.obj.sizeOf_spec]
  omega

theorem sizeOf_lt_of_mem_arr {xs : List Json} {x : Json} (h : x ∈ xs) :
    sizeOf x < sizeOf (Json.arr xs) := by
  have h1 : sizeOf x < sizeOf xs := List.sizeOf_lt_of_mem h
  simp only [Json.arr.sizeOf_spec]
  omega

end Json

/-- Python iteration `for x in v`: lists yield elements, strings yield
1-character strings, dicts yield their keys; other values raise `TypeError`. -/
def pyIter : Json → Except String (List Json)
  | .arr xs => .ok xs
  | .str s => .ok (s.toList.map (fun c => .str (String.singleton c)))
  | .obj kvs => .ok (kvs.map (fun kv => .str kv.1))
  | _ => .error "TypeError: not iterable"

/-! ## Normalizer — `adf_to_text` (normalizer.py lines 11–83) -/

/-- Block-level formatting applied to the concatenation of a node's children
(the tail of `adf_to_text`, normalizer.py lines 63–83). -/
def adfFormat (nodeType : Json) (joined : String) : String :=
  if nodeType = .str "paragraph" ∨ nodeType = .str "heading" then pyStrip joined ++ "\n"
  else if nodeType = .str "bulletList" then joined
  else if nodeType = .str "orderedList" then joined
  else if nodeType = .str "listItem" then "• " ++ pyStrip joined ++ "\n"
  else if nodeType = .str "blockquote" then
    joinWith "\n" ((splitChar '\n' (pyStrip joined).toList).map
      (fun line => "> " ++ line.asString)) ++ "\n"
  else if nodeType = .str "codeBlock" then "```\n" ++ joined ++ "```\n"
  else if nodeType = .str "rule" then "---\n"
  else if nodeType = .str "table" then joined ++ "\n"
  else if nodeType = .str "tableRow" ∨ nodeType = .str "tableHeader" ∨ nodeType = .str "tableCell" then
    joined ++ " | "
  else joined

mutual

/-- `adf_to_text` (normalizer.py lines 11–83). The Python function returns
the raw `.get` result in the `text`/`emoji`/`inlineCard` branches (which may
be a non-string); calling `.get` on a non-dict `attrs`, iterating a
non-iterable `content` (`None`, a number or a boolean — strings and dicts
iterate as in Python, yielding characters resp. keys), or `"".join`-ing a
non-string child result raises, which is modelled by `Except.error`. -/
def adfToText (node : Json) : Except String Json :=
  match node with
  | .null => .ok (.str "")
  | .str s => .ok (.str s)
  | .bool _ => .ok (.str "")
  | .num _ => .ok (.str "")
  | .arr _ => .ok (.str "")
  | .obj kvs =>
    let nodeType := Json.objGet kvs "type" (.str "")
    if nodeType = .str "text" then .ok (Json.objGet kvs "text" (.str ""))
    else if nodeType = .str "emoji" then
      match Json.objGet kvs "attrs" (.obj []) with
      | .obj akvs => .ok (Json.objGet akvs "shortName" (Json.objGet akvs "text" (.str "")))
      | _ => .error "AttributeError: get"
    else if nodeType = .str "mention" then
      match Json.objGet kvs "attrs" (.obj []) with
      | .obj akvs =>
        .ok (.str ("@" ++ Json.pyStr (Json.objGet akvs "text" (Json.objGet akvs "id" (.str "")))))
      | _ => .error "AttributeError: get"
    else if nodeType = .str "hardBreak" then .ok (.str "\n")
    else if nodeType = .str "media" ∨ nodeType = .str "mediaGroup" ∨ nodeType = .str "mediaSingle" then
      .ok (.str "[media]")
    else if nodeType = .str "inlineCard" then
      match Json.objGet kvs "attrs" (.obj []) with
      | .obj akvs => .ok (Json.objGet akvs "url" (.str "[link]"))
      | _ => .error "AttributeError: get"
    else
      match h : Json.objGet kvs "content" (.arr []) with
      | .arr children => do
        let joined ← adfJoin children
        .ok (.str (adfFormat nodeType joined))
      | .str s =>
        -- Iterating a Python string yields its characters, each a
        -- one-character string on which `adf_to_text` returns the input
        -- unchanged (normalizer.py line 19), so the join of the parts is the
        -- string itself.
        .ok (.str (adfFormat nodeType (String.join (s.toList.map String.singleton))))
      | .obj ckvs =>
        -- Iterating a Python dict yields its string keys, each returned
        -- unchanged by `adf_to_text` (line 19), so the join is the keys in
        -- insertion order.
        .ok (.str (adfFormat nodeType (String.join (ckvs.map (fun kv => kv.1)))))
      | _ => .error "TypeError: not iterable"
termination_by sizeOf node
decreasing_by
  rcases Json.objGet_eq_default_or_mem h with hd | hm
  · cases hd
    simp only [Json.obj.sizeOf_spec, List.nil.sizeOf_spec]
    have : 0 < sizeOf kvs := by cases kvs <;> simp <;> omega
    omega
  · have := Json.sizeOf_lt_of_mem_kvs hm
    simp only [Json.arr.sizeOf_spec] at this
    omega

/-- The children loop plus `"".join(text_parts)` of `adf_to_text`
(normalizer.py lines 56–60): extract each child, then require every part to
be a string. -/
def adfJoin (xs : List Json) : Except String String :=
  match xs with
  | [] => .ok ""
  | x :: rest => do
    let v ← adfToText x
    let tail ← adfJoin rest
    match v with
    | .str s => .ok (s ++ tail)
    | _ => .error "TypeError: join"
termination_by sizeOf xs
decreasing_by
  · simp only [List.cons.sizeOf_spec]; omega
  · simp only [List.cons.sizeOf_spec]; omega

end

/-- Well-formed ADF trees: every `content` field is a list of well-formed
nodes, every `attrs` field a dict, and the text-bearing leaf fields
(`text`, `shortName`, `url`) strings — the shape the Jira API documents for
rich-text documents. On these inputs `adf_to_text` provably never raises
(see the C9 theorem). -/
def adfWf (j : Json) : Bool :=
  match j with
  | .obj kvs =>
    let t := Json.objGet kvs "type" (.str "")
    if t = .str "text" then
      match Json.objGet kvs "text" (.str "") with
      | .str _ => true
      | _ => false
    else if t = .str "emoji" then
      match Json.objGet kvs "attrs" (.obj []) with
      | .obj akvs =>
        (match Json.objGet akvs "shortName" (Json.objGet akvs "text" (.str "")) with
         | .str _ => true
         | _ => false)
      | _ => false
    else if t = .str "mention" then
      match Json.objGet kvs "attrs" (.obj []) with
      | .obj _ => true
      | _ => false
    else if t = .str "hardBreak" then true
    else if t = .str "media" ∨ t = .str "mediaGroup" ∨ t = .str "mediaSingle" then true
    else if t = .str "inlineCard" then
      match Json.objGet kvs "attrs" (.obj []) with
      | .obj akvs =>
        (match Json.objGet akvs "url" (.str "[link]") with
         | .str _ => true
         | _ => false)
      | _ => false
    else
      match h : Json.objGet kvs "content" (.arr []) with
      | .arr xs => xs.attach.all (fun x => adfWf x.1)
      | _ => false
  | _ => true
termination_by sizeOf j
decreasing_by
  rcases Json.objGet_eq_default_or_mem h with hd | hm
  · injection hd with hxs
    subst hxs
    exact absurd x.2 (by simp)
  · have h1 := Json.sizeOf_lt_of_mem_kvs hm
    have h2 : sizeOf x.1 < sizeOf (Json.arr xs) := Json.sizeOf_lt_of_mem_arr x.2
    omega

/-- The node types `adf_to_text` treats specially; any other type falls
through to plain concatenation of its children. -/
def adfRecognizedTypes : List Json :=
  [.str "text", .str "emoji", .str "mention", .str "hardBreak", .str "media",
   .str "mediaGroup", .str "mediaSingle", .str "inlineCard", .str "paragraph",
   .str "heading", .str "bulletList", .str "orderedList", .str "listItem",
   .str "blockquote", .str "codeBlock", .str "rule", .str "table",
   .str "tableRow", .str "tableHeader", .str "tableCell"]

/-! ## Normalizer — `normalize_issue` and helpers (normalizer.py lines 86–262) -/

/-- Python `a or b`. -/
def pyOr (a b : Json) : Json := if a.truthy then a else b

/-- `_safe_str` (normalizer.py lines 86–94). The Python annotation promises
`str | None` but the dict branch returns the raw `or`-chain value, which can
be any truthy value; we keep the raw `Json`, with `.null` for `None`. -/
def safeStr : Json → Json
  | .null => .null
  | .str s => .str s
  | .obj kvs =>
    pyOr (Json.objGet kvs "name" .null)
      (pyOr (Json.objGet kvs "displayName" .null)
        (pyOr (Json.objGet kvs "value" .null) (.str (Json.pyStr (.obj kvs)))))
  | v => .str (Json.pyStr v)

/-- The pattern `v.get("name") if isinstance(v, dict) else _safe_str(v)`. -/
def nameIfDict (v : Json) : Json :=
  match v with
  | .obj kvs => Json.objGet kvs "name" .null
  | _ => safeStr v

/-- The pattern `v.get(k, {}).get("name") if isinstance(v, dict) else None`
(raises when `v[k]` is present but not a dict). -/
def nestedNameIfDict (v : Json) (k : String) : Except String Json :=
  match v with
  | .obj kvs =>
    match Json.objGet kvs k (.obj []) with
    | .obj ckvs => .ok (Json.objGet ckvs "name" .null)
    | _ => .error "AttributeError: get"
  | _ => .ok .null

/-- `_extract_description` (normalizer.py lines 97–116); returns
`(description_plain, description_raw)`. -/
def extractDescription (fields : Json) : Except String (Json × Json) := do
  let desc ← fields.pyGet "description" .null
  match desc with
  | .null => .ok (.null, .null)
  | .str s => .ok (.str s, .str s)
  | .obj kvs =>
    if Json.objGet kvs "type" .null = .str "doc" then do
      let t ← adfToText (.obj kvs)
      match t with
      | .str s =>
        let plain := pyStrip s
        .ok (if plain ≠ "" then .str plain else .null, .obj kvs)
      | _ => .error "AttributeError: strip"
    else
      .ok (.str (Json.pyStr desc), desc)
  | _ => .ok (.str (Json.pyStr desc), desc)

/-- `_normalize_link` (normalizer.py lines 119–159). -/
def normalizeLink (link : Json) : Except String Json := do
  match link with
  | .obj lkvs => do
    let linkType := Json.objGet lkvs "type" (.obj [])
    let typeName ← linkType.pyGet "name" (.str "")
    let hasInward := (lkvs.find? (fun kv => kv.1 = "inwardIssue")).isSome
    let hasOutward := (lkvs.find? (fun kv => kv.1 = "outwardIssue")).isSome
    if hasInward ∨ hasOutward then do
      let direction : Json := if hasInward then .str "inward" else .str "outward"
      let linked :=
        if hasInward then Json.objGet lkvs "inwardIssue" .null
        else Json.objGet lkvs "outwardIssue" .null
      let relation ←
        if hasInward then linkType.pyGet "inward" typeName
        else linkType.pyGet "outward" typeName
      let linkedFields ← linked.pyGet "fields" (.obj [])
      let linkedStatus ← linkedFields.pyGet "status" (.obj [])
      let linkedKey ← linked.pyGet "key" .null
      let linkedSummary ← linkedFields.pyGet "summary" .null
      let lStatus : Json :=
        match linkedStatus with
        | .obj skvs => Json.objGet skvs "name" .null
        | _ => .null
      let lStatusCat ← nestedNameIfDict linkedStatus "statusCategory"
      .ok (.obj [
        ("type", typeName),
        ("direction", direction),
        ("relation", relation),
        ("linked_key", linkedKey),
        ("linked_summary", linkedSummary),
        ("linked_status", lStatus),
        ("linked_status_category", lStatusCat)])
    else
      .ok (.obj [
        ("type", typeName),
        ("direction", .str "unknown"),
        ("relation", typeName),
        ("linked_key", .null),
        ("linked_summary", .null),
        ("linked_status", .null),
        ("linked_status_category", .null)])
  | _ => .error "AttributeError: get"

/-- `_normalize_minimal` (normalizer.py lines 162–181). -/
def normalizeMinimal (issue : Json) : Except String Json := do
  let fields ← issue.pyGet "fields" (.obj [])
  let status := pyOr (← fields.pyGet "status" .null) (.obj [])
  let priority := pyOr (← fields.pyGet "priority" .null) (.obj [])
  let issuetype := pyOr (← fields.pyGet "issuetype" .null) (.obj [])
  let key ← issue.pyGet "key" .null
  let id ← issue.pyGet "id" .null
  let summary ← fields.pyGet "summary" .null
  let statusCat ← nestedNameIfDict status "statusCategory"
  .ok (.obj [
    ("key", key),
    ("id", id),
    ("summary", summary),
    ("type", nameIfDict issuetype),
    ("status", nameIfDict status),
    ("statusCategory", statusCat),
    ("priority", nameIfDict priority)])

/-- The key set of the TaskForge canonical schema, in the order of the dict
literal returned by `normalize_issue` (normalizer.py lines 231–257). -/
def canonicalKeys : List String :=
  ["key", "id", "projectKey", "type", "summary", "status", "statusCategory",
   "priority", "assignee", "created", "updated", "dueDate",
   "description_plain", "description_raw", "parent", "subtasks", "links",
   "labels", "components"]

/-- `normalize_issue` (normalizer.py lines 184–257). -/
def normalizeIssue (raw : Json) : Except String Json := do
  let fields ← raw.pyGet "fields" (.obj [])
  let status := pyOr (← fields.pyGet "status" .null) (.obj [])
  let statusCategory : Json :=
    match status with
    | .obj skvs => Json.objGet skvs "statusCategory" (.obj [])
    | _ => .obj []
  let priority := pyOr (← fields.pyGet "priority" .null) (.obj [])
  let assigneeRaw := pyOr (← fields.pyGet "assignee" .null) (.obj [])
  let issuetype := pyOr (← fields.pyGet "issuetype" .null) (.obj [])
  let project := pyOr (← fields.pyGet "project" .null) (.obj [])
  let descPair ← extractDescription fields
  let parentRaw ← fields.pyGet "parent" .null
  let parent ← if parentRaw.truthy then normalizeMinimal parentRaw else pure Json.null
  let subtasksRaw := pyOr (← fields.pyGet "subtasks" .null) (.arr [])
  let subtasksItems ← pyIter subtasksRaw
  let subtasksXs ← subtasksItems.mapM normalizeMinimal
  let subtasks := Json.arr subtasksXs
  let linksRaw := pyOr (← fields.pyGet "issuelinks" .null) (.arr [])
  let linksItems ← pyIter linksRaw
  let linksXs ← linksItems.mapM normalizeLink
  let links := Json.arr linksXs
  let labels := pyOr (← fields.pyGet "labels" .null) (.arr [])
  let componentsRaw := pyOr (← fields.pyGet "components" .null) (.arr [])
  let componentsItems ← pyIter componentsRaw
  let components := Json.arr (componentsItems.map (fun c =>
    match c with
    | .obj ckvs => Json.objGet ckvs "name" .null
    | _ => .str (Json.pyStr c)))
  let key ← raw.pyGet "key" .null
  let id ← raw.pyGet "id" .null
  let projectKey : Json :=
    match project with
    | .obj pkvs => Json.objGet pkvs "key" .null
    | _ => .null
  let summary ← fields.pyGet "summary" .null
  let statusCatName : Json :=
    match statusCategory with
    | .obj ckvs => Json.objGet ckvs "name" .null
    | _ => .null
  let assignee : Json :=
    if assigneeRaw.truthy then
      match assigneeRaw with
      | .obj akvs =>
        pyOr (Json.objGet akvs "displayName" .null)
          (pyOr (Json.objGet akvs "name" .null) (Json.objGet akvs "emailAddress" .null))
      | _ => safeStr assigneeRaw
    else .null
  let created ← fields.pyGet "created" .null
  let updated ← fields.pyGet "updated" .null
  let dueDate ← fields.pyGet "duedate" .null
  .ok (.obj [
    ("key", key),
    ("id", id),
    ("projectKey", projectKey),
    ("type", nameIfDict issuetype),
    ("summary", summary),
    ("status", nameIfDict status),
    ("statusCategory", statusCatName),
    ("priority", nameIfDict priority),
    ("assignee", assignee),
    ("created", created),
    ("updated", updated),
    ("dueDate", dueDate),
    ("description_plain", descPair.1),
    ("description_raw", descPair.2),
    ("parent", parent),
    ("subtasks", subtasks),
    ("links", links),
    ("labels", labels),
    ("components", components)])

/-- The key list of a `Json` dict (empty for non-dicts). -/
def jsonKeys : Json → List String
  | .obj kvs => kvs.map Prod.fst
  | _ => []

theorem bind_ok {α β : Type} {e : Except String α} {f : α → Except String β} {b : β}
    (h : (e >>= f) = .ok b) : ∃ a, e = .ok a ∧ f a = .ok b := by
  cases e with
  | ok a => exact ⟨a, rfl, h⟩
  | error s => exact absurd h (by simp [Bind.bind, Except.bind])

/-! ## Tree builder (tree.py) -/

/-- A normalized record, as the Python `dict[str, Any]` the tree builder
receives: an association list in insertion order. -/
abbrev Rec := List (String × Json)

/-- `r.get(k, d)` on a record. -/
def recGet (r : Rec) (k : String) (d : Json) : Json := Json.objGet r k d

/-- Python `d[k] = v` on a dict: replaces in place if the key exists
(keeping its position), else appends. -/
def dictSet (r : Rec) (k : String) (v : Json) : Rec :=
  if r.any (fun kv => kv.1 = k) then
    r.map (fun kv => if kv.1 = k then (k, v) else kv)
  else r ++ [(k, v)]

/-- The key under which `build_tree` indexes an issue:
`issue.get("key", "")` (tree.py line 22). -/
def recKey (r : Rec) : Json := recGet r "key" (.str "")

/-- The parent key of a node: `parent.get("key") if isinstance(parent, dict)
else None` where `parent = node.get("parent")` (tree.py lines 33–34). -/
def parentKeyOf (r : Rec) : Json :=
  match recGet r "parent" .null with
  | .obj pkvs => Json.objGet pkvs "key" .null
  | _ => .null

/-- One step of the `by_key` indexing loop (tree.py lines 21–27): Python dict
assignment keeps the position of an existing key and replaces its value
(duplicate keys keep the later record). -/
def upsert (acc : List (Json × Rec)) (k : Json) (r : Rec) : List (Json × Rec) :=
  if acc.any (fun kv => kv.1 = k) then
    acc.map (fun kv => if kv.1 = k then (k, r) else kv)
  else acc ++ [(k, r)]

/-- The `by_key` index built by the first loop of `build_tree`
(tree.py lines 19–27), in dict insertion order. -/
def indexIssues (issues : List Rec) : List (Json × Rec) :=
  issues.foldl (fun acc issue => upsert acc (recKey issue) issue) []

/-- Append one child key to a parent's children list
(`by_key[parent_key]["children"].append(node)`, tree.py line 37). -/
def appendChild (m : List (Json × List Json)) (p k : Json) : List (Json × List Json) :=
  m.map (fun q => if q.1 = p then (q.1, q.2 ++ [k]) else q)

/-- The result of `build_tree`, viewed as the graph of mutable node dicts the
Python code creates: the key-indexed records, each node's ordered children
keys, the root keys, and the orphan diagnostic counter. The node dict for
key `k` is `{**record, "children": [...]}`; children/roots hold references
to these shared node dicts, which the graph represents by their keys. -/
structure TreeGraph where
  byKey : List (Json × Rec)
  childMap : List (Json × List Json)
  roots : List Json
  orphanCount : Nat
  deriving Repr

/-- The attach loop of `build_tree` (tree.py lines 29–41), iterating over
`by_key.values()` in insertion order. -/
def attachAll (byKey : List (Json × Rec)) :
    List (Json × List Json) × List Json × Nat :=
  byKey.foldl
    (fun st kv =>
      let (m, roots, orphans) := st
      let pk := parentKeyOf kv.2
      if pk.truthy ∧ byKey.any (fun e => e.1 = pk) then
        (appendChild m pk kv.1, roots, orphans)
      else
        (m, roots ++ [kv.1], if pk.truthy then orphans + 1 else orphans))
    (byKey.map (fun kv => (kv.1, ([] : List Json))), [], 0)

/-- The sort key used by `build_tree` and `_sort_children`:
`n.get("key", "")`, a string for every record produced by the normalizer.
The comparison is modelled on the string contents (Python raises `TypeError`
when asked to order keys of mixed types; the theorems below restrict to
string keys, where the model and the source agree). -/
def keyStr : Json → String
  | .str s => s
  | _ => ""

/-- Lexicographic comparison by code point — Python string `<=`. -/
def charListLe : List Char → List Char → Bool
  | [], _ => true
  | _ :: _, [] => false
  | c :: cs, d :: ds =>
    if c = d then charListLe cs ds
    else decide (c.toNat < d.toNat)

def keyLe (a b : Json) : Bool := charListLe (keyStr a).toList (keyStr b).toList

/-- Stable insertion into a sorted list: `x` goes before the first element
it compares `le` to, so equal elements keep their original relative order —
the behaviour of Python's (stable) `list.sort`. -/
def insertLe {α : Type} (le : α → α → Bool) (x : α) : List α → List α
  | [] => [x]
  | y :: ys => if le x y then x :: y :: ys else y :: insertLe le x ys

/-- Stable insertion sort; agrees with Python `list.sort` for any total
preorder `le` (a stable sort's output is unique). -/
def isort {α : Type} (le : α → α → Bool) : List α → List α
  | [] => []
  | x :: xs => insertLe le x (isort le xs)

/-- `build_tree` (tree.py lines 11–55). `_sort_children` (lines 58–63)
recursively sorts the children list of every node reachable from the roots;
nodes unreachable from the roots are never part of the returned forest and
are never read by `flatten_tree`, so the embedding sorts every children
list — the two coincide on every node of the output. -/
def buildTree (issues : List Rec) : TreeGraph :=
  let byKey := indexIssues issues
  let (m, roots, orphans) := attachAll byKey
  { byKey := byKey
    childMap := m.map (fun q => (q.1, isort keyLe q.2))
    roots := isort keyLe roots
    orphanCount := orphans }

/-- The record stored at key `k` (node fields other than `children`). -/
def recordOf (g : TreeGraph) (k : Json) : Rec :=
  match g.byKey.find? (fun kv => kv.1 = k) with
  | some kv => kv.2
  | none => []

/-- `node.get("children", [])` of the node at key `k`. -/
def childrenOf (g : TreeGraph) (k : Json) : List Json :=
  match g.childMap.find? (fun kv => kv.1 = k) with
  | some kv => kv.2
  | none => []

/-- One flattened entry (`flatten_tree`, tree.py lines 70–72):
`{k: v for k, v in node.items() if k != "children"}` plus
`flat["_depth"] = depth`. -/
def flatOf (g : TreeGraph) (k : Json) (depth : Nat) : Rec :=
  dictSet ((recordOf g k).filter (fun kv => kv.1 ≠ "children")) "_depth" (.num depth)

/-- `flatten_tree` (tree.py lines 66–74) over the node graph. The Python
function recurses on the nested node structure; `fuel` bounds that recursion
depth, and `flattenTree` below supplies fuel exceeding the depth of every
node reachable from the roots, where the recursion provably terminates. -/
def flattenGo (g : TreeGraph) : Nat → Nat → List Json → List Rec
  | 0, _, _ => []
  | fuel + 1, depth, ks =>
    ks.flatMap (fun k => flatOf g k depth :: flattenGo g fuel (depth + 1) (childrenOf g k))

/-- `flatten_tree(tree)` for `tree = build_tree(...)`: depth-first flatten
from the roots. -/
def flattenTree (g : TreeGraph) : List Rec :=
  flattenGo g (g.byKey.length + 1) 0 g.roots

/-- Association-list lookup — Python `d[k]` / `d.get(k)` on the dicts the
tree builder manipulates (`by_key` and the per-node children lists). -/
def alookup {β : Type} (m : List (Json × β)) (k : Json) : Option β :=
  (m.find? (fun kv => kv.1 = k)).map (fun kv => kv.2)

/-- The record `build_tree` keeps for key `k`: the last input record with that
key ("on duplicate key, keep the later occurrence", tree.py lines 22–27). -/
def lastMatch (issues : List Rec) (k : Json) : Option Rec :=
  issues.foldl (fun o r => if recKey r = k then some r else o) none

/-- One step of the attach loop of `build_tree` (tree.py lines 32–41),
the fold body of `attachAll`. -/
def attachStep (byKey : List (Json × Rec))
    (st : List (Json × List Json) × List Json × Nat) (kv : Json × Rec) :
    List (Json × List Json) × List Json × Nat :=
  let (m, roots, orphans) := st
  let pk := parentKeyOf kv.2
  if pk.truthy ∧ byKey.any (fun e => e.1 = pk) then
    (appendChild m pk kv.1, roots, orphans)
  else
    (m, roots ++ [kv.1], if pk.truthy then orphans + 1 else orphans)

/-- The parent key the attach loop resolves for the entry `kv` of `by_key`:
`some pk` when the parent key is truthy and present in `by_key` (the node is
attached under `pk`), `none` when the node becomes a root
(tree.py lines 33–41). -/
def attachTarget (byKey : List (Json × Rec)) (kv : Json × Rec) : Option Json :=
  let pk := parentKeyOf kv.2
  if pk.truthy ∧ byKey.any (fun e => e.1 = pk) then some pk else none

/-- The parent key resolved for the node stored at key `k`: `none` when `k`
is absent from the index or its parent reference does not resolve within the
dataset. -/
def resolvedParent (byKey : List (Json × Rec)) (k : Json) : Option Json :=
  match alookup byKey k with
  | some r => attachTarget byKey (k, r)
  | none => none

/-- Length of the chain of parents of `k` resolvable within the dataset,
bounded by `fuel`: `some d` when after `d` resolved-parent steps the chain
ends, `none` when `fuel` steps do not suffice (in particular on parent
cycles). -/
def chainLenOpt (byKey : List (Json × Rec)) : Nat → Json → Option Nat
  | 0, _ => none
  | fuel + 1, k =>
    match resolvedParent byKey k with
    | none => some 0
    | some p => (chainLenOpt byKey fuel p).map (· + 1)

/-- The length of the chain of parents of `k` resolvable within the dataset,
with fuel exceeding the number of keys — enough whenever the chain
terminates at all. -/
def chainLen (byKey : List (Json × Rec)) (k : Json) : Nat :=
  (chainLenOpt byKey (byKey.length + 1) k).getD 0

/-- Every key's resolvable-parent chain terminates: the dataset has no
parent cycle among fetched issues. -/
def resolvable (byKey : List (Json × Rec)) : Bool :=
  (byKey.map Prod.fst).all (fun k => (chainLenOpt byKey (byKey.length + 1) k).isSome)

/-- Iterated resolved parent: the ancestor of `k` at distance `n`, when the
chain extends that far. -/
def piter (byKey : List (Json × Rec)) : Nat → Json → Option Json
  | 0, k => some k
  | n + 1, k =>
    match resolvedParent byKey k with
    | none => none
    | some p => piter byKey n p

/-- `a` lies on the resolvable-parent chain of `j`, within `byKey.length`
steps — enough whenever chains terminate: `j` belongs to the subtree the
flattener emits under `a`. -/
def isAnc (byKey : List (Json × Rec)) (a j : Json) : Bool :=
  (List.range (byKey.length + 1)).any (fun n => decide (piter byKey n j = some a))

/-- The flat record `flatten_tree` emits for the node holding record `r` at
depth `d`: `r` with any `children` field removed and `_depth` set to `d`. -/
def flatRec (r : Rec) (d : Nat) : Rec :=
  dictSet (r.filter (fun kv => kv.1 ≠ "children")) "_depth" (.num d)

/-- Every record's `key` field is a string — true of every record the
normalizer emits, and what lets Python sort the keys without a
`TypeError`. -/
def strKeys (issues : List Rec) : Bool :=
  issues.all (fun r => match recKey r with | .str _ => true | _ => false)

/-- A nonempty descending path through `children` links of the built tree. -/
inductive ChildPath (g : TreeGraph) : Json → Json → Prop
  | single {p c : Json} : c ∈ childrenOf g p → ChildPath g p c
  | cons {p c d : Json} : c ∈ childrenOf g p → ChildPath g c d → ChildPath g p d

/-- `k` is part of the forest `build_tree` returns: a root, or reachable
from a root through `children` links. -/
def Reachable (g : TreeGraph) (k : Json) : Prop :=
  k ∈ g.roots ∨ ∃ r ∈ g.roots, ChildPath g r k

/-- Every emitted record comes after the record of its resolved parent:
parents precede their children in the flattened output. -/
def ParentsFirst (byKey : List (Json × Rec)) (out : List Rec) : Prop :=
  ∀ l₁ e l₂, out = l₁ ++ e :: l₂ →
    ∀ p, resolvedParent byKey (recKey e) = some p → ∃ e₂ ∈ l₁, recKey e₂ = p

/-- Auxiliary invariant behind `ParentsFirst`: every record of `out` has its
resolved parent's record among `pre` and the records of `out` before it. -/
def PF (byKey : List (Json × Rec)) : List Rec → List Rec → Prop
  | _, [] => True
  | pre, e :: rest =>
    (∀ p, resolvedParent byKey (recKey e) = some p → ∃ e₂ ∈ pre, recKey e₂ = p)
    ∧ PF byKey (pre ++ [e]) rest

/-- Sample input for the tree claims: record "B" is a child of record "A". -/
def treeSampleAB : List Rec :=
  [[("key", Json.str "B"), ("parent", Json.obj [("key", Json.str "A")])],
   [("key", Json.str "A")]]

/-- Sample input with a duplicate key: two distinct records named "DUP-1". -/
def treeSampleDup : List Rec :=
  [[("key", Json.str "DUP-1"), ("n", Json.num 1)],
   [("key", Json.str "DUP-1"), ("n", Json.num 2)]]

/-! ## Settings (config.py) and query engine (queries.py) -/

/-- The configuration slice the query engine reads (config.py lines 49–55),
with the source defaults. -/
structure Settings where
  blockedLinkKeywords : String := "is blocked by,Blocked,depends on"
  blockedFlagField : Option String := none

/-- `Settings.blocked_keywords` (config.py lines 151–153):
`[k.strip().lower() for k in self.blocked_link_keywords.split(",") if k.strip()]`. -/
def Settings.blockedKeywords (s : Settings) : List String :=
  ((((splitChar ',' s.blockedLinkKeywords.toList).map List.asString).filter
      (fun k => pyStrip k ≠ "")).map (fun k => pyLower (pyStrip k)))

/-- Does `needle` occur at the head of `hay`? -/
def listLeadsWith : List Char → List Char → Bool
  | [], _ => true
  | _ :: _, [] => false
  | c :: cs, d :: ds => c = d && listLeadsWith cs ds

/-- Does `needle` occur anywhere in `hay`? -/
def listHasSub (needle : List Char) : List Char → Bool
  | [] => needle.isEmpty
  | c :: rest => listLeadsWith needle (c :: rest) || listHasSub needle rest

/-- Python `needle in hay` on strings: substring containment. -/
def pyInStr (needle hay : String) : Bool := listHasSub needle.toList hay.toList

/-- The per-link body of the `find_blocked` loop (queries.py lines 34–44):
lowercase the link's `relation` (empty for falsy values) and emit one
blocker descriptor when any configured keyword occurs in it as a substring. -/
def linkBlockers (keywords : List String) (link : Json) : Except String (List Json) := do
  let relRaw ← link.pyGet "relation" .null
  let rel ←
    match pyOr relRaw (.str "") with
    | .str s => Except.ok (pyLower s)
    | _ => .error "AttributeError: lower"
  if keywords.any (fun kw => pyInStr kw rel) then do
    let k ← link.pyGet "linked_key" .null
    let sm ← link.pyGet "linked_summary" .null
    let st ← link.pyGet "linked_status" .null
    let r ← link.pyGet "relation" .null
    .ok [.obj [("key", k), ("summary", sm), ("status", st), ("relation", r)]]
  else
    .ok []

/-- The synthetic blocker emitted for the flag-field case
(`if flag_field and issue.get(flag_field)`, queries.py lines 47–55):
`{"key": None, "summary": "Flagged via <field>", "status": None,
"relation": "flagged"}`, or nothing when the flag is absent or falsy. -/
def flagBlockers (s : Settings) (issue : Rec) : List Json :=
  match s.blockedFlagField with
  | some f =>
    if f ≠ "" ∧ (recGet issue f .null).truthy then
      [Json.obj [("key", .null), ("summary", .str ("Flagged via " ++ f)),
                 ("status", .null), ("relation", .str "flagged")]]
    else []
  | none => []

/-- The `for link in issue.get("links", [])` loop of `find_blocked`
(queries.py lines 34–44), appending each link's contribution in order. -/
def linksBlockers (kw : List String) : List Json → Except String (List Json)
  | [] => .ok []
  | l :: rest => do
    let b ← linkBlockers kw l
    let tail ← linksBlockers kw rest
    .ok (b ++ tail)

/-- The blockers collected for one issue (queries.py lines 32–55): the
descriptors of every qualifying link, then the synthetic `flagged`
descriptor when the configured flag field is truthy on the record. -/
def issueBlockers (s : Settings) (issue : Rec) : Except String (List Json) := do
  let links ← pyIter (recGet issue "links" (.arr []))
  let fromLinks ← linksBlockers s.blockedKeywords links
  .ok (fromLinks ++ flagBlockers s issue)

/-- Specification-side reading of the per-link blocking condition of C4: the
link's `relation`, lowercased (falsy relations read as the empty string),
when that is well-defined (`None` marks a link whose processing would
raise: a non-dict link or a truthy non-string relation). -/
def linkRelationLower (link : Json) : Option String :=
  match link with
  | .obj lk =>
    (match pyOr (Json.objGet lk "relation" .null) (.str "") with
     | .str t => some (pyLower t)
     | _ => none)
  | _ => none

/-- A link qualifies as blocking when some configured keyword occurs in its
lowercased relation (case-insensitive substring containment). -/
def linkQualifies (keywords : List String) (link : Json) : Bool :=
  match linkRelationLower link with
  | some rel => keywords.any (fun kw => pyInStr kw rel)
  | none => false

/-- The blocker descriptor a qualifying link contributes
(key, summary, status, relation — queries.py lines 37–44). -/
def blockerDescriptor (link : Json) : Json :=
  match link with
  | .obj lk =>
    .obj [("key", Json.objGet lk "linked_key" .null),
          ("summary", Json.objGet lk "linked_summary" .null),
          ("status", Json.objGet lk "linked_status" .null),
          ("relation", Json.objGet lk "relation" .null)]
  | _ => .null

/-- The C4 reading of the flag condition:
`flag_field and issue.get(flag_field)` is truthy. -/
def flagTruthy (s : Settings) (issue : Rec) : Bool :=
  match s.blockedFlagField with
  | some f => f ≠ "" && (recGet issue f .null).truthy
  | none => false


/-- One element of the `find_blocked` result:
`{"issue": issue, "blockers": blockers}` (queries.py line 58). -/
structure BlockedEntry where
  issue : Rec
  blockers : List Json
  deriving Repr, DecidableEq

/-- `find_blocked` (queries.py lines 14–60). -/
def findBlocked (issues : List Rec) (s : Settings) : Except String (List BlockedEntry) :=
  match issues with
  | [] => .ok []
  | issue :: rest => do
    let bs ← issueBlockers s issue
    let tail ← findBlocked rest s
    .ok (if bs.isEmpty then tail else ⟨issue, bs⟩ :: tail)

/-- `PRIORITY_SCORES.get(priority, 30)` (queries.py lines 70–77, 159):
the fixed ordinal table, `None ↦ 30`, default 30; an unhashable key
(a Python list or dict) raises `TypeError`. -/
def priorityScore (p : Json) : Except String Int :=
  match p with
  | .arr _ | .obj _ => .error "TypeError: unhashable"
  | .str "Highest" => .ok 100
  | .str "High" => .ok 75
  | .str "Medium" => .ok 50
  | .str "Low" => .ok 25
  | .str "Lowest" => .ok 10
  | .null => .ok 30
  | _ => .ok 30

/-- `_is_done_category` (queries.py lines 83–87). -/
def isDoneCategory (cat : Json) : Except String Bool :=
  if ¬ cat.truthy then .ok false
  else
    match cat with
    | .str s => .ok (pyLower (pyStrip s) ∈ ["done", "complete", "closed"])
    | _ => .error "AttributeError: strip"

/-- `_due_date_score` / `_recency_score` (queries.py lines 90–131) outside
their date arithmetic: falsy input scores 0.0; a truthy non-string raises
(`.replace` on a non-string); for a string the score is computed from the
parsed timestamp and the current wall-clock time, abstracted here as the
function `f` — every theorem below holds for every `f`, hence at every
instant of evaluation. Scores are Python floats on exact small decimals,
modelled as rationals. -/
def timeScore (f : String → Rat) (v : Json) : Except String Rat :=
  if ¬ v.truthy then .ok 0
  else
    match v with
    | .str s => .ok (f s)
    | _ => .error "AttributeError: replace"

/-- Python `round(x, 1)` on exact decimals: round-half-to-even at one
decimal place. -/
def round1 (x : Rat) : Rat :=
  let y := 10 * x
  let n : Int := ⌊y⌋
  let frac := y - (n : Rat)
  let r : Int :=
    if frac < 1/2 then n
    else if frac > 1/2 then n + 1
    else if Even n then n else n + 1
  (r : Rat) / 10

/-- One element of the `rank_next` result:
`{"issue": ..., "score": ..., "breakdown": {...}}` (queries.py lines 166–177). -/
structure RankedEntry where
  issue : Rec
  score : Rat
  priorityB : Int
  dueDateB : Rat
  recencyB : Rat
  blockedPenaltyB : Rat
  deriving Repr, DecidableEq

/-- The loop body of `rank_next` (queries.py lines 152–177): `none` when the
issue is skipped as done, otherwise its scored entry. -/
def rankEntry (dScore rScore : String → Rat) (blockedKeys : List Json)
    (issue : Rec) : Except String (Option RankedEntry) := do
  let cat := recGet issue "statusCategory" (.str "")
  let done ← isDoneCategory cat
  if done then .ok none
  else do
    let p ← priorityScore (recGet issue "priority" .null)
    let d ← timeScore dScore (recGet issue "dueDate" .null)
    let r ← timeScore rScore (recGet issue "updated" .null)
    let key := recGet issue "key" .null
    let b ←
      match key with
      | .arr _ | .obj _ => .error "TypeError: unhashable"
      | _ => Except.ok (if key ∈ blockedKeys then (-50 : Rat) else 0)
    let total : Rat := (p : Rat) + d + r + b
    .ok (some
      { issue := issue
        score := round1 total
        priorityB := p
        dueDateB := round1 d
        recencyB := round1 r
        blockedPenaltyB := b })

/-- `blocked_keys = {r["issue"]["key"] for r in find_blocked(issues, s)}`
(queries.py lines 145–148): a direct index, raising `KeyError` when absent,
`TypeError` when unhashable; set membership is modelled by list membership
(the keys are hashable strings or `None` for the records at issue). -/
def blockedKeySet (entries : List BlockedEntry) : Except String (List Json) :=
  entries.mapM (fun e =>
    match e.issue.find? (fun kv => kv.1 = "key") with
    | some kv =>
      match kv.2 with
      | .arr _ | .obj _ => .error "TypeError: unhashable"
      | v => .ok v
    | none => .error "KeyError: key")

/-- Collect the scored entries of `rank_next` in input order. -/
def rankResults (dScore rScore : String → Rat) (blockedKeys : List Json) :
    List Rec → Except String (List RankedEntry)
  | [] => .ok []
  | issue :: rest => do
    let e ← rankEntry dScore rScore blockedKeys issue
    let tail ← rankResults dScore rScore blockedKeys rest
    .ok (match e with
         | some entry => entry :: tail
         | none => tail)

/-- Descending-by-score comparison used by
`results.sort(key=lambda r: r["score"], reverse=True)`: with the stable
`isort` this places an earlier entry before a later one exactly when its
score is greater or equal, which is Python's stable reverse sort. -/
def scoreGe (a b : RankedEntry) : Bool := b.score ≤ a.score

/-- `rank_next` (queries.py lines 134–180), with the wall-clock-dependent
date scoring abstracted as `dScore`/`rScore` (see `timeScore`). -/
def rankNext (dScore rScore : String → Rat) (issues : List Rec) (top : Nat)
    (s : Settings) : Except String (List RankedEntry) := do
  let blocked ← findBlocked issues s
  let blockedKeys ← blockedKeySet blocked
  let results ← rankResults dScore rScore blockedKeys issues
  .ok ((isort scoreGe results).take top)

/-! ## Transport (jira_client.py) -/

/-- `ISSUE_FIELDS` (jira_client.py lines 25–41). -/
def issueFields : List String :=
  ["summary", "status", "priority", "assignee", "issuetype", "created",
   "updated", "duedate", "description", "parent", "subtasks", "issuelinks",
   "labels", "components", "project"]

/-- One HTTP request as issued by `_search_issues` (method, path, JSON body
for POST, query params for GET). -/
structure HttpReq where
  method : String
  path : String
  body : List (String × Json)
  params : List (String × Json)
  deriving Repr, DecidableEq

/-- The base search payload (jira_client.py lines 172–176). -/
def searchPayload (jql : String) (maxResults : Int) : List (String × Json) :=
  [("jql", .str jql), ("maxResults", .num maxResults),
   ("fields", .arr (issueFields.map .str))]

/-- The cursor-mode request `POST /rest/api/3/search/jql`
(jira_client.py lines 184–192); `nextPageToken` is added only for a truthy
token. -/
def cursorReq (jql : String) (maxResults : Int) (nextToken : Option String) : HttpReq :=
  { method := "POST", path := "/rest/api/3/search/jql"
    body :=
      match nextToken with
      | some t => if t ≠ "" then searchPayload jql maxResults ++ [("nextPageToken", .str t)]
                  else searchPayload jql maxResults
      | none => searchPayload jql maxResults
    params := [] }

/-- The offset-mode `POST /rest/api/3/search` request (lines 202–210). -/
def postV3Req (jql : String) (maxResults : Int) (startAt : Int) : HttpReq :=
  { method := "POST", path := "/rest/api/3/search"
    body := searchPayload jql maxResults ++ [("startAt", .num startAt)]
    params := [] }

/-- The offset-mode `GET /rest/api/3/search` request (lines 214–222). -/
def getV3Req (jql : String) (maxResults : Int) (startAt : Int) : HttpReq :=
  { method := "GET", path := "/rest/api/3/search"
    body := []
    params := [("jql", .str jql), ("startAt", .num startAt),
               ("maxResults", .num maxResults),
               ("fields", .str (String.intercalate "," issueFields))] }

/-- The legacy offset-mode `POST /rest/api/2/search` request (lines 227–231). -/
def postV2Req (jql : String) (maxResults : Int) (startAt : Int) : HttpReq :=
  { method := "POST", path := "/rest/api/2/search"
    body := searchPayload jql maxResults ++ [("startAt", .num startAt)]
    params := [] }

/-- An HTTP environment: the parsed JSON body of a successful
`_request_with_retry` (which already encapsulates the retry policy), or the
`JiraClientError`/`HTTPStatusError` it raises. -/
abbrev HttpEnv := HttpReq → Except String Json

/-- `JiraClient._search_issues` (jira_client.py lines 164–231): opportunistic
cursor mode with offset fallback; a failed call with a truthy supplied
cursor is re-raised. `mode` is `settings.jira_auth_mode`. -/
def searchIssues (env : HttpEnv) (mode : String) (jql : String)
    (startAt : Int) (maxResults : Int) (nextToken : Option String) :
    Except String Json :=
  let offsetChain : Except String Json :=
    match env (postV3Req jql maxResults startAt) with
    | .ok r => .ok r
    | .error _ =>
      match env (getV3Req jql maxResults startAt) with
      | .ok r => .ok r
      | .error _ => env (postV2Req jql maxResults startAt)
  let useCursor := nextToken.isSome ∨ (startAt = 0 ∧ mode = "cloud")
  if useCursor then
    match env (cursorReq jql maxResults nextToken) with
    | .ok r => .ok r
    | .error e =>
      if (match nextToken with | some t => t != "" | none => false) then .error e
      else offsetChain
  else offsetChain

/-- One page response's `issues` list (`data.get("issues", [])` then
`all_issues.extend(issues)`, which iterates the value). -/
def pageIssues (data : Json) : Except String (List Json) := do
  let v ← data.pyGet "issues" (.arr [])
  pyIter v

/-- The pagination loop of `fetch_all_assigned` (jira_client.py lines
249–292), with `_search_issues` abstracted as the sequence `responses`
(the `n`-th request made returns `responses n`). State: accumulated issues,
`start_at`, `next_token`, number of requests made so far. `fuel` bounds the
number of loop iterations; `.ok none` marks fuel exhaustion (ruled out with
fuel 6 by the hard-cap theorem). `MAX_ISSUES_HARD_CAP = 500`,
`page_size = 100`. -/
def fetchLoop (responses : Nat → Json) :
    Nat → List Json → Int → Option Json → Nat →
    Except String (Option (List Json × Nat))
  | 0, _, _, _, _ => .ok none
  | fuel + 1, acc, startAt, nextToken, calls =>
    if acc.length ≥ 500 then .ok (some (acc, calls))
    else do
      let _ := nextToken
      let data := responses calls
      let issues ← pageIssues data
      let acc' := acc ++ issues
      let hasToken :=
        match data with
        | .obj kvs => kvs.any (fun kv => kv.1 = "nextPageToken")
        | _ => false
      let total ← data.pyGet "total" (.num (-1))
      if issues.isEmpty then .ok (some (acc', calls + 1))
      else if issues.length < 100 then .ok (some (acc', calls + 1))
      else if hasToken then
        let tok :=
          match data with
          | .obj kvs => Json.objGet kvs "nextPageToken" .null
          | _ => .null
        if ¬ tok.truthy then .ok (some (acc', calls + 1))
        else fetchLoop responses fuel acc' startAt (some tok) (calls + 1)
      else
        let startAt' := startAt + issues.length
        match total with
        | .num t =>
          if t ≠ -1 ∧ startAt' ≥ t then .ok (some (acc', calls + 1))
          else fetchLoop responses fuel acc' startAt' nextToken (calls + 1)
        | .bool b =>
          let t : Int := if b then 1 else 0
          if startAt' ≥ t then .ok (some (acc', calls + 1))
          else fetchLoop responses fuel acc' startAt' nextToken (calls + 1)
        | _ => .error "TypeError: compare"

/-- `fetch_all_assigned` (jira_client.py lines 233–293): run the pagination
loop from the empty state. Fuel 6 suffices: every iteration that issues a
request either ends the loop or grows the accumulator by at least
`page_size = 100`, so the 500-issue hard cap is reached within 5 requests. -/
def fetchAllAssigned (responses : Nat → Json) :
    Except String (Option (List Json × Nat)) :=
  fetchLoop responses 6 [] 0 none 0

/-- The fully-null canonical record produced for the empty raw dict. -/
def emptyCanonical : Json :=
  .obj [
    ("key", .null), ("id", .null), ("projectKey", .null), ("type", .null),
    ("summary", .null), ("status", .null), ("statusCategory", .null),
    ("priority", .null), ("assignee", .null), ("created", .null),
    ("updated", .null), ("dueDate", .null), ("description_plain", .null),
    ("description_raw", .null), ("parent", .null), ("subtasks", .arr []),
    ("links", .arr []), ("labels", .arr []), ("components", .arr [])]


/-- A well-formed page response: an object whose `issues` member is a list
and whose `total` member is a number or boolean — the shapes the pagination
loop of `fetch_all_assigned` consumes without raising. -/
def pageOk (data : Json) : Bool :=
  match data with
  | .obj kvs =>
    (match Json.objGet kvs "issues" (.arr []) with
     | .arr _ => true
     | _ => false) &&
    (match Json.objGet kvs "total" (.num (-1)) with
     | .num _ => true
     | .bool _ => true
     | _ => false)
  | _ => false

def pageLenOf (data : Json) : Nat :=
  match data with
  | .obj kvs =>
    (match Json.objGet kvs "issues" (.arr []) with
     | .arr xs => xs.length
     | _ => 0)
  | _ => 0

/-! ## Claim C1 — canonical key set of `normalize_issue` -/

/-- C1, counterexample: the claim promises that malformed source fields never
cause a raised exception, but `normalize_issue({"fields": 5})` raises
`AttributeError` (`fields.get` on an `int`, normalizer.py line 192). -/
theorem claim_C1_counterexample :
    (normalizeIssue (.obj [("fields", .num 5)])).isOk = false := rfl

/-- C1, amended: whenever `normalize_issue` returns (it can raise on
malformed container fields, e.g. a non-dict `fields` value), the returned
dict's key list is exactly the fixed canonical key list; absent source
fields resolve to `null` — in particular the empty raw dict yields every
canonical key with `null`/empty values. -/
theorem claim_C1_amended :
    (∀ raw out, normalizeIssue raw = .ok out → jsonKeys out = canonicalKeys) ∧
    normalizeIssue (.obj []) = .ok emptyCanonical := by
  constructor
  · intro raw out h
    unfold normalizeIssue at h
    simp only [bind, Except.bind] at h
    repeat' split at h
    all_goals first
      | (injection h with h; subst h; rfl)
      | (exact Except.noConfusion h)
  · rfl

/-- C1, witness: the amended theorem applied at the concrete empty raw
record, and at a record whose truthy `components` value is a string — which
Python iterates character by character, so `normalize_issue` returns
normally with `components = ["a", "b"]`. -/
theorem claim_C1_witness :
    jsonKeys emptyCanonical = canonicalKeys ∧
    (normalizeIssue (.obj [("fields", .obj [("components", .str "ab")])])).isOk = true ∧
    (∀ out, normalizeIssue (.obj [("fields", .obj [("components", .str "ab")])]) = .ok out →
      jsonKeys out = canonicalKeys ∧
      (match out with | .obj kvs => Json.objGet kvs "components" .null | _ => .null)
        = .arr [.str "a", .str "b"]) := by
  refine ⟨claim_C1_amended.1 (.obj []) emptyCanonical claim_C1_amended.2, rfl, ?_⟩
  intro out h
  refine ⟨claim_C1_amended.1 _ out h, ?_⟩
  injection h with h
  rw [← h]
  rfl


/-! ## Claim C9 — rich-text extraction -/

theorem sizeOf_content_lt {kvs : List (String × Json)} {xs : List Json}
    (hc : Json.objGet kvs "content" (.arr []) = .arr xs) :
    sizeOf xs < sizeOf (Json.obj kvs) := by
  rcases Json.objGet_eq_default_or_mem hc with hd | hm
  · injection hd with h
    subst h
    have h1 : 1 ≤ sizeOf kvs := by
      cases kvs
      · simp
      · simp only [List.cons.sizeOf_spec]; omega
    simp only [Json.obj.sizeOf_spec, List.nil.sizeOf_spec]
    omega
  · have := Json.sizeOf_lt_of_mem_kvs hm
    simp only [Json.arr.sizeOf_spec] at this
    omega

mutual

theorem adfWf_ok : (j : Json) → adfWf j = true → ∃ s, adfToText j = .ok (.str s)
  | .null, _ => ⟨"", by simp [adfToText]⟩
  | .str s, _ => ⟨s, by simp [adfToText]⟩
  | .bool _, _ => ⟨"", by simp [adfToText]⟩
  | .num _, _ => ⟨"", by simp [adfToText]⟩
  | .arr _, _ => ⟨"", by simp [adfToText]⟩
  | .obj kvs, hwf => by
    unfold adfWf at hwf
    unfold adfToText
    dsimp only at hwf ⊢
    split_ifs at hwf ⊢
    · revert hwf
      cases hv : Json.objGet kvs "text" (.str "") <;> simp [hv]
    · revert hwf
      cases ha : Json.objGet kvs "attrs" (.obj []) <;> simp [ha]
      rename_i akvs
      cases hu : Json.objGet akvs "shortName" (Json.objGet akvs "text" (.str "")) <;> simp [hu]
    · revert hwf
      cases ha : Json.objGet kvs "attrs" (.obj []) <;> simp [ha]
    · exact ⟨"\n", rfl⟩
    · exact ⟨"[media]", rfl⟩
    · revert hwf
      cases ha : Json.objGet kvs "attrs" (.obj []) <;> simp [ha]
      rename_i akvs
      cases hu : Json.objGet akvs "url" (.str "[link]") <;> simp [hu]
    · revert hwf
      cases hc : Json.objGet kvs "content" (.arr []) <;> simp [hc]
      rename_i xs
      intro hwf
      obtain ⟨s, hs⟩ := adfJoinWf_ok xs hwf
      exact ⟨_, by rw [hs]; rfl⟩
termination_by j _ => sizeOf j
decreasing_by
  exact sizeOf_content_lt hc

theorem adfJoinWf_ok : (xs : List Json) → (∀ x ∈ xs, adfWf x = true) →
    ∃ s, adfJoin xs = .ok s
  | [], _ => ⟨"", by simp [adfJoin]⟩
  | x :: rest, h => by
    obtain ⟨s, hs⟩ := adfWf_ok x (h x (by simp))
    obtain ⟨t, ht⟩ := adfJoinWf_ok rest (fun y hy => h y (by simp [hy]))
    exact ⟨s ++ t, by simp [adfJoin, hs, ht, bind, Except.bind]⟩
termination_by xs _ => sizeOf xs
decreasing_by
  · simp only [List.cons.sizeOf_spec]; omega
  · simp only [List.cons.sizeOf_spec]; omega

end

/-- C9, counterexample: the claim says the extraction never raises on any
input, but `adf_to_text({"content": 5})` raises `TypeError` when iterating
the non-list `content` value (normalizer.py line 57). -/
theorem claim_C9_counterexample :
    (adfToText (.obj [("content", .num 5)])).isOk = false := by
  simp [adfToText, Json.objGet, List.find?, Except.isOk]
  rfl

/-- C9, amended: (1) a `tableRow`/`tableHeader`/`tableCell` node produces its
children's concatenated text followed by a trailing `" | "` separator;
(2) a node of unrecognized type produces the plain concatenation of its
children's text with no added markup; (3) the extraction never raises on
well-formed ADF trees (`adfWf`: `content` lists, dict `attrs`, string leaf
fields) — though it can raise on arbitrary malformed input (see the
counterexample). -/
theorem claim_C9_amended :
    (∀ kvs xs s,
      (Json.objGet kvs "type" (.str "") = .str "tableRow" ∨
       Json.objGet kvs "type" (.str "") = .str "tableHeader" ∨
       Json.objGet kvs "type" (.str "") = .str "tableCell") →
      Json.objGet kvs "content" (.arr []) = .arr xs → adfJoin xs = .ok s →
      adfToText (.obj kvs) = .ok (.str (s ++ " | "))) ∧
    (∀ kvs xs s, Json.objGet kvs "type" (.str "") ∉ adfRecognizedTypes →
      Json.objGet kvs "content" (.arr []) = .arr xs → adfJoin xs = .ok s →
      adfToText (.obj kvs) = .ok (.str s)) ∧
    (∀ j, adfWf j = true → ∃ s, adfToText j = .ok (.str s)) := by
  refine ⟨?_, ?_, adfWf_ok⟩
  · intro kvs xs s ht hc hj
    unfold adfToText
    dsimp only
    rcases ht with ht | ht | ht <;>
      (rw [ht]
       simp only [hc, hj, adfFormat, bind, Except.bind]
       simp
       split
       · rename_i children h
         rw [hc] at h
         injection h with h
         subst h
         rw [hj]
       · rename_i s2 h
         rw [hc] at h
         simp at h
       · rename_i ckvs2 h
         rw [hc] at h
         simp at h
       · rename_i harr hstr hobj
         exact (harr xs hc).elim)
  · intro kvs xs s ht hc hj
    simp only [adfRecognizedTypes, List.mem_cons, List.not_mem_nil, or_false, not_or] at ht
    obtain ⟨h1, h2, h3, h4, h5, h6, h7, h8, h9, h10, h11, h12, h13, h14, h15, h16, h17, h18,
      h19, h20⟩ := ht
    unfold adfToText
    dsimp only
    simp only [h1, h2, h3, h4, h5, h6, h7, h8, h9, h10, h11, h12, h13, h14, h15, h16, h17,
      h18, h19, h20, if_false, ite_false, or_self, false_or, or_false]
    split
    · rename_i children h
      rw [hc] at h
      injection h with h
      subst h
      rw [hj]
      simp only [adfFormat, h9, h10, h11, h12, h13, h14, h15, h16, h17, h18, h19, h20,
        if_false, ite_false, or_self, false_or, or_false, bind, Except.bind]
    · rename_i s2 h
      rw [hc] at h
      simp at h
    · rename_i ckvs2 h
      rw [hc] at h
      simp at h
    · rename_i harr hstr hobj
      exact (harr xs hc).elim

/-- C9, witness: the amended theorem applied at a concrete table cell, a
concrete node of unrecognized type, and a concrete well-formed leaf. -/
theorem claim_C9_witness :
    adfToText (.obj [("type", .str "tableCell"), ("content", .arr [])]) = .ok (.str " | ") ∧
    adfToText (.obj [("type", .str "custom"), ("content", .arr [])]) = .ok (.str "") ∧
    (∃ s, adfToText Json.null = .ok (.str s)) := by
  refine ⟨?_, ?_, claim_C9_amended.2.2 Json.null (by simp [adfWf])⟩
  · exact claim_C9_amended.1 _ [] "" (by simp [Json.objGet, List.find?])
      (by simp [Json.objGet, List.find?]) (by simp [adfJoin])
  · exact claim_C9_amended.2.1 _ [] "" (by simp [adfRecognizedTypes, Json.objGet, List.find?])
      (by simp [Json.objGet, List.find?]) (by simp [adfJoin])


/-! ## Claim C7 — cursor fallback and hard failure in `_search_issues` -/

/-- C7: when no continuation cursor was supplied and cursor mode is attempted
opportunistically (first page in cloud mode), a cursor-mode failure falls
back, within the same call, to the offset-mode attempts in fixed order —
`POST /rest/api/3/search`, then `GET /rest/api/3/search`, then
`POST /rest/api/2/search` — returning the first success; when a (truthy)
continuation cursor was supplied, a cursor-mode failure is re-raised
unchanged and no offset request is consulted. -/
theorem claim_C7 : ∀ (env : HttpEnv) (jql : String) (mr : Int),
    (∀ e, env (cursorReq jql mr none) = .error e →
      ((∀ r, env (postV3Req jql mr 0) = .ok r →
          searchIssues env "cloud" jql 0 mr none = .ok r) ∧
       (∀ e2 r, env (postV3Req jql mr 0) = .error e2 →
          env (getV3Req jql mr 0) = .ok r →
          searchIssues env "cloud" jql 0 mr none = .ok r) ∧
       (∀ e2 e3, env (postV3Req jql mr 0) = .error e2 →
          env (getV3Req jql mr 0) = .error e3 →
          searchIssues env "cloud" jql 0 mr none = env (postV2Req jql mr 0)))) ∧
    (∀ mode startAt t e, t ≠ "" →
      env (cursorReq jql mr (some t)) = .error e →
      searchIssues env mode jql startAt mr (some t) = .error e) := by
  intro env jql mr
  constructor
  · intro e he
    refine ⟨?_, ?_, ?_⟩
    · intro r hr
      unfold searchIssues
      simp [he, hr]
    · intro e2 r h2 h3
      unfold searchIssues
      simp [he, h2, h3]
    · intro e2 e3 h2 h3
      unfold searchIssues
      simp [he, h2, h3]
  · intro mode startAt t e ht he
    unfold searchIssues
    simp [he, ht]

/-- C7, witness: the theorem applied to a concrete environment in which the
cursor endpoint fails and the first offset endpoint succeeds, and to one
with a supplied cursor. -/
theorem claim_C7_witness :
    searchIssues
      (fun req => if req.path = "/rest/api/3/search/jql" then .error "boom"
                  else .ok (.str "page"))
      "cloud" "q" 0 50 none = .ok (.str "page") ∧
    searchIssues
      (fun req => if req.path = "/rest/api/3/search/jql" then .error "boom"
                  else .ok (.str "page"))
      "cloud" "q" 7 50 (some "tok") = .error "boom" := by
  constructor
  · exact ((claim_C7 _ "q" 50).1 "boom" (by simp [cursorReq])).1 (.str "page")
      (by simp [postV3Req])
  · exact (claim_C7 _ "q" 50).2 "cloud" 7 "tok" "boom" (by simp)
      (by simp [cursorReq])

/-! ## Claim C10 — pagination hard cap in `fetch_all_assigned` -/

theorem pageOk_elim {d : Json} (h : pageOk d = true) :
    ∃ kvs xs, d = .obj kvs ∧ Json.objGet kvs "issues" (.arr []) = .arr xs ∧
      xs.length = pageLenOf d ∧
      ((∃ t : Int, Json.objGet kvs "total" (.num (-1)) = .num t) ∨
       (∃ b : Bool, Json.objGet kvs "total" (.num (-1)) = .bool b)) := by
  unfold pageOk at h
  cases d <;> simp at h
  rename_i kvs
  obtain ⟨h1, h2⟩ := h
  refine ⟨kvs, ?_⟩
  cases hx : Json.objGet kvs "issues" (.arr []) <;> rw [hx] at h1 <;> simp at h1
  rename_i xs
  refine ⟨xs, rfl, rfl, by simp [pageLenOf, hx], ?_⟩
  cases ht : Json.objGet kvs "total" (.num (-1)) <;> rw [ht] at h2 <;> simp at h2
  · exact Or.inr ⟨_, rfl⟩
  · exact Or.inl ⟨_, rfl⟩

theorem fetchLoop_cap (responses : Nat → Json)
    (hwf : ∀ n, pageOk (responses n) = true) :
    ∀ fuel acc startAt tok calls, 1 ≤ fuel →
    500 ≤ acc.length + 100 * (fuel - 1) →
    ∃ l c, fetchLoop responses fuel acc startAt tok calls = .ok (some (l, c)) ∧
      c ≤ calls + (fuel - 1) ∧
      ((∀ n, pageLenOf (responses n) ≤ 100) → acc.length ≤ 599 → l.length ≤ 599) := by
  intro fuel
  induction fuel with
  | zero => intro _ _ _ _ h; omega
  | succ f ih =>
    intro acc startAt tok calls _ hfuel
    rw [fetchLoop]
    by_cases hlen : acc.length ≥ 500
    · simp only [if_pos hlen]
      exact ⟨acc, calls, rfl, by omega, fun _ h => h⟩
    · simp only [if_neg hlen]
      push_neg at hlen
      have hf1 : 1 ≤ f := by by_contra hc; omega
      obtain ⟨kvs, xs, hd, hxs, hplen, htot⟩ := pageOk_elim (hwf calls)
      simp only [hd, pageIssues, Json.pyGet, hxs, pyIter, bind, Except.bind]
      by_cases hempty : xs.isEmpty
      · simp only [if_pos hempty]
        refine ⟨acc ++ xs, calls + 1, rfl, by omega, fun hp h => ?_⟩
        rw [List.isEmpty_iff] at hempty
        simp [hempty]
        omega
      · simp only [if_neg hempty]
        by_cases hshort : xs.length < 100
        · simp only [if_pos hshort]
          refine ⟨acc ++ xs, calls + 1, rfl, by omega, fun hp h => ?_⟩
          simp only [List.length_append]
          omega
        · simp only [if_neg hshort]
          push_neg at hshort
          have hacc' : 500 ≤ (acc ++ xs).length + 100 * (f - 1) := by
            simp only [List.length_append]
            omega
          have hacc'len : (∀ n, pageLenOf (responses n) ≤ 100) → acc.length ≤ 599 →
              (acc ++ xs).length ≤ 599 := by
            intro hp _
            have := hp calls
            rw [← hplen] at this
            simp only [List.length_append]
            omega
          by_cases htok : kvs.any (fun kv => kv.1 = "nextPageToken")
          · simp only [htok, if_true]
            set tk := Json.objGet kvs "nextPageToken" Json.null with htk
            by_cases htr : tk.truthy
            · simp only [htr, ite_false, Bool.not_true]
              obtain ⟨l, c, hl, hc, hlen2⟩ :=
                ih (acc ++ xs) startAt (some tk) (calls + 1) hf1 hacc'
              refine ⟨l, c, ?_, by omega, fun hp h => hlen2 hp (hacc'len hp h)⟩
              simpa using hl
            · simp only [htr]
              refine ⟨acc ++ xs, calls + 1, by simp, by omega, hacc'len⟩
          · simp only [htok, if_false]
            rcases htot with ⟨t, ht⟩ | ⟨b, hb⟩
            · simp only [ht]
              by_cases hbrk : t ≠ -1 ∧ startAt + (xs.length : Int) ≥ t
              · simp only [if_pos hbrk]
                exact ⟨acc ++ xs, calls + 1, rfl, by omega, hacc'len⟩
              · simp only [if_neg hbrk]
                obtain ⟨l, c, hl, hc, hlen2⟩ :=
                  ih (acc ++ xs) (startAt + xs.length) tok (calls + 1) hf1 hacc'
                exact ⟨l, c, hl, by omega, fun hp h => hlen2 hp (hacc'len hp h)⟩
            · simp only [hb]
              by_cases hbrk : startAt + (xs.length : Int) ≥ (if b then 1 else 0)
              · simp only [if_pos hbrk]
                exact ⟨acc ++ xs, calls + 1, rfl, by omega, hacc'len⟩
              · simp only [if_neg hbrk]
                obtain ⟨l, c, hl, hc, hlen2⟩ :=
                  ih (acc ++ xs) (startAt + xs.length) tok (calls + 1) hf1 hacc'
                exact ⟨l, c, hl, by omega, fun hp h => hlen2 hp (hacc'len hp h)⟩


/-- C10: for every sequence of well-formed server page responses, the fetch
loop of `fetch_all_assigned` terminates, stops issuing page requests once it
has accumulated 500 issues (the undocumented `MAX_ISSUES_HARD_CAP`) — at
most 5 requests, since each non-final page contributes at least
`page_size = 100` issues — and, when pages respect the requested page size
of 100, the returned list holds at most 500-plus-one-page (600) issues,
even if the server indefinitely reports more pages available. -/
theorem claim_C10 : ∀ responses : Nat → Json, (∀ n, pageOk (responses n) = true) →
    ∃ l calls, fetchAllAssigned responses = .ok (some (l, calls)) ∧ calls ≤ 5 ∧
      ((∀ n, pageLenOf (responses n) ≤ 100) → l.length ≤ 600) := by
  intro responses hwf
  obtain ⟨l, c, hl, hc, hlen⟩ :=
    fetchLoop_cap responses hwf 6 [] 0 none 0 (by omega) (by simp)
  exact ⟨l, c, hl, by omega, fun hp => by have := hlen hp (by simp); omega⟩

/-- C10, witness: the theorem applied to a server that always reports a full
100-issue page with more pages available; the loop stops at 500 issues after
5 requests. -/
theorem claim_C10_witness :
    ∃ l calls,
      fetchAllAssigned (fun _ => .obj
        [("issues", .arr (List.replicate 100 (.obj [("key", .str "X")]))),
         ("total", .num 100000)]) = .ok (some (l, calls)) ∧
      calls ≤ 5 ∧ l.length ≤ 600 := by
  obtain ⟨l, c, hl, hc, hlen⟩ := claim_C10
    (fun _ => .obj
      [("issues", .arr (List.replicate 100 (.obj [("key", .str "X")]))),
       ("total", .num 100000)])
    (fun _ => by rfl)
  exact ⟨l, c, hl, hc, hlen (fun _ => by simp [pageLenOf, Json.objGet, List.find?])⟩

/-! ## Claim C4 — blocked detection -/



theorem flagBlockers_ne_nil {s : Settings} {issue : Rec} :
    flagBlockers s issue ≠ [] ↔ flagTruthy s issue = true := by
  unfold flagBlockers flagTruthy
  cases s.blockedFlagField with
  | none => simp
  | some f =>
    dsimp only
    by_cases hf : f ≠ "" ∧ (recGet issue f .null).truthy = true
    · simp [if_pos hf, hf.1, hf.2]
    · rw [if_neg hf]
      constructor
      · intro h; exact absurd rfl h
      · intro hcon
        rw [Bool.and_eq_true, decide_eq_true_eq] at hcon
        exact absurd hcon hf

theorem linkBlockers_char {kw : List String} {link : Json} {bs : List Json}
    (h : linkBlockers kw link = .ok bs) :
    bs = if linkQualifies kw link then [blockerDescriptor link] else [] := by
  cases link with
  | obj lk =>
    unfold linkBlockers at h
    simp only [Json.pyGet, bind, Except.bind] at h
    cases hrel : pyOr (Json.objGet lk "relation" .null) (.str "") with
    | str t =>
      rw [hrel] at h
      dsimp only at h
      have hEq : (kw.any fun k => pyInStr k (pyLower t)) =
          linkQualifies kw (.obj lk) := by
        simp [linkQualifies, linkRelationLower, hrel]
      rw [hEq] at h
      by_cases hq : linkQualifies kw (.obj lk) = true
      · rw [if_pos hq] at h
        rw [if_pos hq]
        injection h with h
        rw [← h]
        rfl
      · rw [Bool.not_eq_true] at hq
        rw [hq] at h ⊢
        simp at h
        simp [← h]
    | null => rw [hrel] at h; simp at h
    | bool b => rw [hrel] at h; simp at h
    | num n => rw [hrel] at h; simp at h
    | arr a => rw [hrel] at h; simp at h
    | obj o => rw [hrel] at h; simp at h
  | null => simp [linkBlockers, Json.pyGet, bind, Except.bind] at h
  | bool b => simp [linkBlockers, Json.pyGet, bind, Except.bind] at h
  | num n => simp [linkBlockers, Json.pyGet, bind, Except.bind] at h
  | str t => simp [linkBlockers, Json.pyGet, bind, Except.bind] at h
  | arr a => simp [linkBlockers, Json.pyGet, bind, Except.bind] at h

theorem linksBlockers_char {kw : List String} :
    ∀ {ls : List Json} {bs : List Json},
    linksBlockers kw ls = .ok bs →
    bs = (ls.filter (fun l => linkQualifies kw l)).map blockerDescriptor := by
  intro ls
  induction ls with
  | nil => intro bs h; simp [linksBlockers] at h; simp [h]
  | cons x rest ih =>
    intro bs h
    rw [linksBlockers] at h
    simp only [bind, Except.bind] at h
    cases hx : linkBlockers kw x with
    | error e => rw [hx] at h; simp at h
    | ok b =>
      rw [hx] at h
      cases hr : linksBlockers kw rest with
      | error e => rw [hr] at h; simp at h
      | ok tl =>
        rw [hr] at h
        simp only at h
        injection h with h
        subst h
        rw [ih hr, linkBlockers_char hx]
        by_cases hq : linkQualifies kw x
        · simp [hq]
        · simp [hq]


theorem issueBlockers_char {s : Settings} {issue : Rec} {bs : List Json}
    (h : issueBlockers s issue = .ok bs) :
    ∀ ls, pyIter (recGet issue "links" (.arr [])) = .ok ls →
    bs = (ls.filter (fun l => linkQualifies s.blockedKeywords l)).map blockerDescriptor ++
      flagBlockers s issue := by
  intro ls hls
  unfold issueBlockers at h
  simp only [bind, Except.bind] at h
  rw [hls] at h
  dsimp only at h
  cases hlb : linksBlockers s.blockedKeywords ls with
  | error e => rw [hlb] at h; simp at h
  | ok fl =>
    rw [hlb] at h
    simp only at h
    injection h with h
    rw [← h, linksBlockers_char hlb]

theorem findBlocked_sound {s : Settings} :
    ∀ {issues : List Rec} {out : List BlockedEntry}, findBlocked issues s = .ok out →
    (∀ e ∈ out, e.issue ∈ issues ∧
       ∃ bs, issueBlockers s e.issue = .ok bs ∧ bs ≠ [] ∧ e.blockers = bs) ∧
    (∀ i ∈ issues, ∀ bs, issueBlockers s i = .ok bs → bs ≠ [] → ∃ e ∈ out, e.issue = i) ∧
    (∀ i ∈ issues, ∃ bs, issueBlockers s i = .ok bs) := by
  intro issues
  induction issues with
  | nil =>
    intro out h
    simp [findBlocked] at h
    subst h
    simp
  | cons i rest ih =>
    intro out h
    rw [findBlocked] at h
    simp only [bind, Except.bind] at h
    cases hbs : issueBlockers s i with
    | error e => rw [hbs] at h; simp at h
    | ok bs =>
      rw [hbs] at h
      cases htl : findBlocked rest s with
      | error e => rw [htl] at h; simp at h
      | ok tail =>
        rw [htl] at h
        simp only at h
        injection h with h
        subst h
        obtain ⟨ihA, ihB, ihC⟩ := ih htl
        refine ⟨?_, ?_, ?_⟩
        · intro e he
          by_cases hemp : bs.isEmpty
          · rw [if_pos hemp] at he
            obtain ⟨hmem, hrest⟩ := ihA e he
            exact ⟨List.mem_cons_of_mem _ hmem, hrest⟩
          · rw [if_neg hemp] at he
            rcases List.mem_cons.mp he with he | he
            · subst he
              refine ⟨List.mem_cons_self _ _, bs, hbs, ?_, rfl⟩
              intro hnil
              exact hemp (by simp [hnil])
            · obtain ⟨hmem, hrest⟩ := ihA e he
              exact ⟨List.mem_cons_of_mem _ hmem, hrest⟩
        · intro j hj bs2 hbs2 hne
          rcases List.mem_cons.mp hj with hj | hj
          · subst hj
            rw [hbs] at hbs2
            injection hbs2 with hbs2
            have hemp : ¬ bs.isEmpty = true := by
              intro hc
              exact hne (hbs2 ▸ List.isEmpty_iff.mp hc)
            rw [if_neg hemp]
            exact ⟨⟨j, bs⟩, List.mem_cons_self _ _, rfl⟩
          · obtain ⟨e, hetl, heq⟩ := ihB j hj bs2 hbs2 hne
            by_cases hemp : bs.isEmpty
            · rw [if_pos hemp]
              exact ⟨e, hetl, heq⟩
            · rw [if_neg hemp]
              exact ⟨e, List.mem_cons_of_mem _ hetl, heq⟩
        · intro j hj
          rcases List.mem_cons.mp hj with hj | hj
          · subst hj
            exact ⟨bs, hbs⟩
          · exact ihC j hj

theorem claim_C4 : ∀ s issues out, findBlocked issues s = .ok out →
    (∀ i ∈ issues, ∀ ls, pyIter (recGet i "links" (.arr [])) = .ok ls →
      (((∃ l ∈ ls, linkQualifies s.blockedKeywords l = true) ∨ flagTruthy s i = true) ↔
        ∃ e ∈ out, e.issue = i)) ∧
    (∀ e ∈ out, e.issue ∈ issues ∧
      ∀ ls, pyIter (recGet e.issue "links" (.arr [])) = .ok ls →
      e.blockers =
        (ls.filter (fun l => linkQualifies s.blockedKeywords l)).map blockerDescriptor ++
        flagBlockers s e.issue ∧ e.blockers ≠ []) := by
  intro s issues out h
  obtain ⟨hA, hB, hC⟩ := findBlocked_sound h
  have hcond : ∀ i : Rec, ∀ ls, pyIter (recGet i "links" (.arr [])) = .ok ls →
      ∀ bs, issueBlockers s i = .ok bs →
      (bs ≠ [] ↔
        ((∃ l ∈ ls, linkQualifies s.blockedKeywords l = true) ∨ flagTruthy s i = true)) := by
    intro i ls hls bs hbs
    rw [issueBlockers_char hbs ls hls]
    rw [ne_eq, List.append_eq_nil, not_and_or]
    have h2 : ¬ (ls.filter (fun l => linkQualifies s.blockedKeywords l)).map blockerDescriptor = [] ↔
        ∃ l ∈ ls, linkQualifies s.blockedKeywords l = true := by
      rw [List.map_eq_nil_iff, List.filter_eq_nil_iff]
      push_neg
      simp
    rw [h2, ← ne_eq, flagBlockers_ne_nil]
  refine ⟨?_, ?_⟩
  · intro i hi ls hls
    obtain ⟨bs, hbs⟩ := hC i hi
    constructor
    · intro hcd
      exact hB i hi bs hbs ((hcond i ls hls bs hbs).mpr hcd)
    · rintro ⟨e, he, heq⟩
      obtain ⟨-, bs2, hbs2, hne2, -⟩ := hA e he
      rw [heq] at hbs2
      exact (hcond i ls hls bs2 hbs2).mp hne2
  · intro e he
    obtain ⟨hmem, bs, hbs, hne, hbl⟩ := hA e he
    refine ⟨hmem, ?_⟩
    intro ls hls
    rw [hbl]
    exact ⟨issueBlockers_char hbs ls hls, hne⟩


/-- C4, witness: the theorem applied to a concrete pair of records — one with
a qualifying "is blocked by" link (flagged with that link's descriptor), one
with only a non-matching "relates to" link (absent from the output). -/
theorem c4_witness_comp : findBlocked
    [[("key", .str "W-1"),
      ("links", .arr [.obj [("relation", .str "is blocked by"), ("linked_key", .str "W-9")]])],
     [("key", .str "W-2"),
      ("links", .arr [.obj [("relation", .str "relates to")]])]] {} = .ok
    [⟨[("key", .str "W-1"),
       ("links", .arr [.obj [("relation", .str "is blocked by"), ("linked_key", .str "W-9")]])],
      [.obj [("key", .str "W-9"), ("summary", .null), ("status", .null),
             ("relation", .str "is blocked by")]]⟩] := rfl

theorem claim_C4_witness :
    ∃ out, findBlocked
        [[("key", .str "W-1"),
          ("links", .arr [.obj [("relation", .str "is blocked by"), ("linked_key", .str "W-9")]])],
         [("key", .str "W-2"),
          ("links", .arr [.obj [("relation", .str "relates to")]])]] {} = .ok out ∧
      (∃ e ∈ out, e.issue =
        [("key", .str "W-1"),
         ("links", .arr [.obj [("relation", .str "is blocked by"), ("linked_key", .str "W-9")]])]) ∧
      ¬ (∃ e ∈ out, e.issue =
        [("key", .str "W-2"),
         ("links", .arr [.obj [("relation", .str "relates to")]])]) := by
  have hfb := c4_witness_comp
  have hls1 : pyIter (recGet
      [("key", .str "W-1"),
       ("links", .arr [.obj [("relation", .str "is blocked by"), ("linked_key", .str "W-9")]])]
      "links" (.arr [])) = .ok
      [.obj [("relation", .str "is blocked by"), ("linked_key", .str "W-9")]] := rfl
  have hls2 : pyIter (recGet
      [("key", .str "W-2"),
       ("links", .arr [.obj [("relation", .str "relates to")]])]
      "links" (.arr [])) = .ok [.obj [("relation", .str "relates to")]] := rfl
  have hq1 : linkQualifies (Settings.blockedKeywords {})
      (.obj [("relation", .str "is blocked by"), ("linked_key", .str "W-9")]) = true := rfl
  refine ⟨_, hfb, ?_, ?_⟩
  · exact ((claim_C4 {} _ _ hfb).1 _ (by simp) _ hls1).mp
      (Or.inl ⟨.obj [("relation", .str "is blocked by"), ("linked_key", .str "W-9")], by simp, hq1⟩)
  · intro hex
    have hcond := ((claim_C4 {} _ _ hfb).1
      [("key", .str "W-2"), ("links", .arr [.obj [("relation", .str "relates to")]])]
      (by simp) _ hls2).mpr hex
    rcases hcond with ⟨l, hl, hq⟩ | hf
    · simp at hl
      subst hl
      have : linkQualifies (Settings.blockedKeywords {})
          (.obj [("relation", .str "relates to")]) = false := rfl
      rw [this] at hq
      exact Bool.false_ne_true hq
    · have : flagTruthy {} [("key", Json.str "W-2"),
          ("links", Json.arr [Json.obj [("relation", Json.str "relates to")]])] = false := rfl
      rw [this] at hf
      exact Bool.false_ne_true hf

/-! ## Claims C5 and C6 — rank_next -/

theorem insertLe_perm {α : Type} (le : α → α → Bool) (x : α) (l : List α) :
    List.Perm (insertLe le x l) (x :: l) := by
  induction l with
  | nil => rfl
  | cons y ys ih =>
    rw [insertLe]
    by_cases h : le x y
    · rw [if_pos h]
    · rw [if_neg h]
      exact (ih.cons y).trans (List.Perm.swap x y ys)

theorem isort_perm {α : Type} (le : α → α → Bool) (l : List α) :
    List.Perm (isort le l) l := by
  induction l with
  | nil => rfl
  | cons x xs ih =>
    rw [isort]
    exact (insertLe_perm le x (isort le xs)).trans (ih.cons x)

theorem insertLe_sorted {α : Type} (le : α → α → Bool)
    (htot : ∀ a b, le a b = true ∨ le b a = true)
    (htrans : ∀ a b c, le a b = true → le b c = true → le a c = true)
    (x : α) (l : List α) (hl : l.Pairwise (fun a b => le a b = true)) :
    (insertLe le x l).Pairwise (fun a b => le a b = true) := by
  induction l with
  | nil => simp [insertLe]
  | cons y ys ih =>
    rw [insertLe]
    rcases List.pairwise_cons.mp hl with ⟨hy, hys⟩
    by_cases h : le x y
    · rw [if_pos h]
      refine List.pairwise_cons.mpr ⟨?_, hl⟩
      intro z hz
      rcases List.mem_cons.mp hz with hz | hz
      · subst hz; exact h
      · exact htrans x y z h (hy z hz)
    · rw [if_neg h]
      refine List.pairwise_cons.mpr ⟨?_, ih hys⟩
      intro z hz
      have hz' := (insertLe_perm le x ys).mem_iff.mp hz
      rcases List.mem_cons.mp hz' with hz' | hz'
      · rcases htot y z with hc | hc
        · exact hc
        · rw [hz'] at hc
          exact absurd hc h
      · exact hy z hz'

theorem isort_sorted {α : Type} (le : α → α → Bool)
    (htot : ∀ a b, le a b = true ∨ le b a = true)
    (htrans : ∀ a b c, le a b = true → le b c = true → le a c = true)
    (l : List α) :
    (isort le l).Pairwise (fun a b => le a b = true) := by
  induction l with
  | nil => simp [isort]
  | cons x xs ih =>
    rw [isort]
    exact insertLe_sorted le htot htrans x (isort le xs) ih

theorem scoreGe_total : ∀ a b : RankedEntry, scoreGe a b = true ∨ scoreGe b a = true := by
  intro a b
  unfold scoreGe
  rcases le_total b.score a.score with h | h
  · exact Or.inl (by simpa using h)
  · exact Or.inr (by simpa using h)

theorem scoreGe_trans : ∀ a b c : RankedEntry,
    scoreGe a b = true → scoreGe b c = true → scoreGe a c = true := by
  intro a b c hab hbc
  unfold scoreGe at hab hbc ⊢
  simp only [decide_eq_true_eq] at hab hbc ⊢
  exact le_trans hbc hab

theorem insertLe_scoreGe_filter (x : RankedEntry) (l : List RankedEntry) (c : Rat) :
    (insertLe scoreGe x l).filter (fun e => e.score = c) =
      if x.score = c then x :: l.filter (fun e => e.score = c)
      else l.filter (fun e => e.score = c) := by
  induction l with
  | nil =>
    rw [insertLe]
    by_cases hx : x.score = c
    · simp [List.filter_cons, hx]
    · simp [List.filter_cons, hx]
  | cons y ys ih =>
    rw [insertLe]
    by_cases h : scoreGe x y
    · rw [if_pos h]
      by_cases hx : x.score = c
      · simp [List.filter_cons, hx]
      · simp [List.filter_cons, hx]
    · rw [if_neg h]
      have hlt : x.score < y.score := by
        unfold scoreGe at h
        simp only [decide_eq_true_eq] at h
        exact lt_of_not_le (fun hc => h (by simpa using hc))
      by_cases hx : x.score = c
      · have hy : ¬ y.score = c := by
          intro hy
          rw [← hx] at hy
          exact absurd hy.symm (ne_of_lt hlt)
        rw [if_pos hx]
        simp [List.filter_cons, hy, ih, hx]
      · rw [if_neg hx]
        simp [List.filter_cons, hx, ih]

theorem isort_scoreGe_filter (l : List RankedEntry) (c : Rat) :
    (isort scoreGe l).filter (fun e => e.score = c) =
      l.filter (fun e => e.score = c) := by
  induction l with
  | nil => rfl
  | cons x xs ih =>
    rw [isort, insertLe_scoreGe_filter]
    by_cases hx : x.score = c
    · rw [if_pos hx, ih, List.filter_cons]
      simp [hx]
    · rw [if_neg hx, ih, List.filter_cons]
      simp [hx]

theorem take_filter_take {α : Type} (p : α → Bool) :
    ∀ (l : List α) (n : Nat), ∃ m, (l.take n).filter p = (l.filter p).take m := by
  intro l
  induction l with
  | nil => intro n; exact ⟨0, by simp⟩
  | cons x xs ih =>
    intro n
    cases n with
    | zero => exact ⟨0, by simp⟩
    | succ k =>
      obtain ⟨m, hm⟩ := ih k
      by_cases hx : p x
      · exact ⟨m + 1, by simp [List.filter_cons, hx, hm]⟩
      · exact ⟨m, by simp [List.filter_cons, hx, hm]⟩


theorem rankNext_ok_elim {dS rS : String → Rat} {issues : List Rec} {top : Nat}
    {s : Settings} {out : List RankedEntry}
    (h : rankNext dS rS issues top s = .ok out) :
    ∃ bl bk res, findBlocked issues s = .ok bl ∧ blockedKeySet bl = .ok bk ∧
      rankResults dS rS bk issues = .ok res ∧
      out = (isort scoreGe res).take top := by
  unfold rankNext at h
  simp only [bind, Except.bind] at h
  cases hbl : findBlocked issues s with
  | error e => rw [hbl] at h; simp at h
  | ok bl =>
    rw [hbl] at h
    dsimp only at h
    cases hbk : blockedKeySet bl with
    | error e => rw [hbk] at h; simp at h
    | ok bk =>
      rw [hbk] at h
      dsimp only at h
      cases hres : rankResults dS rS bk issues with
      | error e => rw [hres] at h; simp at h
      | ok res =>
        rw [hres] at h
        dsimp only at h
        injection h with h
        exact ⟨bl, bk, res, rfl, hbk, hres, h.symm⟩

theorem rankEntry_ok_some {dS rS : String → Rat} {bk : List Json} {i : Rec}
    {e : RankedEntry} (h : rankEntry dS rS bk i = .ok (some e)) :
    e.issue = i ∧
    isDoneCategory (recGet i "statusCategory" (.str "")) = .ok false := by
  unfold rankEntry at h
  simp only [bind, Except.bind] at h
  cases hd : isDoneCategory (recGet i "statusCategory" (.str "")) with
  | error err => rw [hd] at h; simp at h
  | ok done =>
    rw [hd] at h
    dsimp only at h
    cases done with
    | true => simp at h
    | false =>
      simp only [if_false, Bool.false_eq_true] at h
      refine ⟨?_, rfl⟩
      cases hp : priorityScore (recGet i "priority" Json.null) with
      | error err => rw [hp] at h; simp at h
      | ok p =>
        rw [hp] at h
        dsimp only at h
        cases hdu : timeScore dS (recGet i "dueDate" Json.null) with
        | error err => rw [hdu] at h; simp at h
        | ok d =>
          rw [hdu] at h
          dsimp only at h
          cases hr : timeScore rS (recGet i "updated" Json.null) with
          | error err => rw [hr] at h; simp at h
          | ok r =>
            rw [hr] at h
            dsimp only at h
            split at h
            all_goals first
              | exact Except.noConfusion h
              | (injection h with h
                 injection h with h
                 rw [← h])




theorem rankResults_mem {dS rS : String → Rat} {bk : List Json} :
    ∀ {issues : List Rec} {res : List RankedEntry},
    rankResults dS rS bk issues = .ok res →
    ∀ e ∈ res, e.issue ∈ issues ∧
      isDoneCategory (recGet e.issue "statusCategory" (.str "")) = .ok false := by
  intro issues
  induction issues with
  | nil =>
    intro res h
    rw [rankResults] at h
    injection h with h
    subst h
    simp
  | cons i rest ih =>
    intro res h
    rw [rankResults] at h
    simp only [bind, Except.bind] at h
    cases he : rankEntry dS rS bk i with
    | error err => rw [he] at h; simp at h
    | ok oe =>
      rw [he] at h
      dsimp only at h
      cases htl : rankResults dS rS bk rest with
      | error err => rw [htl] at h; simp at h
      | ok tail =>
        rw [htl] at h
        dsimp only at h
        injection h with h
        subst h
        intro e hmem
        cases oe with
        | none =>
          obtain ⟨h1, h2⟩ := ih htl e hmem
          exact ⟨List.mem_cons_of_mem _ h1, h2⟩
        | some entry =>
          rcases List.mem_cons.mp hmem with hmem | hmem
          · subst hmem
            obtain ⟨hiss, hdone⟩ := rankEntry_ok_some he
            rw [hiss]
            exact ⟨List.mem_cons_self _ _, hdone⟩
          · obtain ⟨h1, h2⟩ := ih htl e hmem
            exact ⟨List.mem_cons_of_mem _ h1, h2⟩

theorem claim_C5 : ∀ (dS rS : String → Rat) (issues : List Rec) (top : Nat)
    (s : Settings) (out : List RankedEntry),
    rankNext dS rS issues top s = .ok out →
    (∀ e ∈ out, isDoneCategory (recGet e.issue "statusCategory" (.str "")) = .ok false) ∧
    (∀ i : Rec, isDoneCategory (recGet i "statusCategory" (.str "")) = .ok true →
      ∀ e ∈ out, e.issue ≠ i) := by
  intro dS rS issues top s out h
  obtain ⟨bl, bk, res, hbl, hbk, hres, hout⟩ := rankNext_ok_elim h
  have hmem : ∀ e ∈ out, e ∈ res := by
    intro e he
    rw [hout] at he
    exact ((isort_perm scoreGe res).mem_iff).mp (List.mem_of_mem_take he)
  have hdone : ∀ e ∈ out, isDoneCategory (recGet e.issue "statusCategory" (.str "")) = .ok false :=
    fun e he => (rankResults_mem hres e (hmem e he)).2
  refine ⟨hdone, ?_⟩
  intro i hi e he heq
  have := hdone e he
  rw [heq, hi] at this
  simp at this


theorem claim_C6 : ∀ (dS rS : String → Rat) (issues : List Rec) (top : Nat)
    (s : Settings) (out : List RankedEntry),
    rankNext dS rS issues top s = .ok out →
    ∃ bl bk res, findBlocked issues s = .ok bl ∧ blockedKeySet bl = .ok bk ∧
      rankResults dS rS bk issues = .ok res ∧
      out = (isort scoreGe res).take top ∧
      List.Pairwise (fun a b : RankedEntry => b.score ≤ a.score) out ∧
      out.length ≤ top ∧
      (∀ c : Rat, ∃ m, out.filter (fun e => e.score = c) =
        (res.filter (fun e => e.score = c)).take m) := by
  intro dS rS issues top s out h
  obtain ⟨bl, bk, res, hbl, hbk, hres, hout⟩ := rankNext_ok_elim h
  refine ⟨bl, bk, res, hbl, hbk, hres, hout, ?_, ?_, ?_⟩
  · rw [hout]
    have hs := isort_sorted scoreGe scoreGe_total scoreGe_trans res
    have := hs.sublist (List.take_sublist top (isort scoreGe res))
    exact this.imp (fun hab => by
      unfold scoreGe at hab
      simpa using hab)
  · rw [hout]
    exact List.length_take_le _ _
  · intro c
    rw [hout]
    obtain ⟨m, hm⟩ := take_filter_take (fun e => decide (e.score = c)) (isort scoreGe res) top
    exact ⟨m, by rw [hm, isort_scoreGe_filter]⟩


theorem c56_witness_comp : rankNext (fun _ => 0) (fun _ => 0)
    [[("statusCategory", .str "Done")],
     [("key", .str "A"), ("statusCategory", .str "To Do")]] 10 {} = .ok
    [{ issue := [("key", .str "A"), ("statusCategory", .str "To Do")],
       score := 30, priorityB := 30, dueDateB := 0, recencyB := 0,
       blockedPenaltyB := 0 }] := by with_unfolding_all rfl

theorem claim_C5_witness :
    isDoneCategory (recGet [("statusCategory", Json.str "Done")] "statusCategory" (.str "")) =
      .ok true ∧
    ∀ e ∈ [({ issue := [("key", Json.str "A"), ("statusCategory", Json.str "To Do")],
              score := 30, priorityB := 30, dueDateB := 0, recencyB := 0,
              blockedPenaltyB := 0 } : RankedEntry)],
      e.issue ≠ [("statusCategory", Json.str "Done")] := by
  refine ⟨by decide, ?_⟩
  exact (claim_C5 (fun _ => 0) (fun _ => 0) _ 10 {} _ c56_witness_comp).2
    [("statusCategory", Json.str "Done")] (by decide)

theorem claim_C6_witness :
    List.Pairwise (fun a b : RankedEntry => b.score ≤ a.score)
      [({ issue := [("key", Json.str "A"), ("statusCategory", Json.str "To Do")],
          score := 30, priorityB := 30, dueDateB := 0, recencyB := 0,
          blockedPenaltyB := 0 } : RankedEntry)] ∧
    ([({ issue := [("key", Json.str "A"), ("statusCategory", Json.str "To Do")],
         score := 30, priorityB := 30, dueDateB := 0, recencyB := 0,
         blockedPenaltyB := 0 } : RankedEntry)]).length ≤ 10 := by
  obtain ⟨bl, bk, res, -, -, -, -, hpair, hlen, -⟩ :=
    claim_C6 (fun _ => 0) (fun _ => 0) _ 10 {} _ c56_witness_comp
  exact ⟨hpair, hlen⟩


theorem char_toNat_inj {c d : Char} (h : c.toNat = d.toNat) : c = d := by
  have : c.val = d.val := by
    apply UInt32.eq_of_val_eq
    exact Fin.ext h
  exact Char.eq_of_val_eq this

/-! ### Comparator lemmas -/

theorem charListLe_total : ∀ a b : List Char, charListLe a b = true ∨ charListLe b a = true := by
  intro a
  induction a with
  | nil => intro b; left; rfl
  | cons c cs ih =>
    intro b
    cases b with
    | nil => right; rfl
    | cons d ds =>
      rw [charListLe, charListLe]
      by_cases hcd : c = d
      · subst hcd
        simp only [if_pos rfl]
        exact ih ds
      · rw [if_neg hcd, if_neg (Ne.symm hcd)]
        rcases Nat.lt_or_ge c.toNat d.toNat with h | h
        · left; simpa using h
        · right
          have hne : d.toNat ≠ c.toNat := fun he => hcd (char_toNat_inj he.symm)
          simp only [decide_eq_true_eq]
          omega

theorem charListLe_trans : ∀ a b c : List Char,
    charListLe a b = true → charListLe b c = true → charListLe a c = true := by
  intro a
  induction a with
  | nil => intro b c _ _; rfl
  | cons x xs ih =>
    intro b c hab hbc
    cases b with
    | nil => simp [charListLe] at hab
    | cons y ys =>
      cases c with
      | nil => simp [charListLe] at hbc
      | cons z zs =>
        rw [charListLe] at hab hbc ⊢
        by_cases hxy : x = y
        · subst hxy
          rw [if_pos rfl] at hab
          by_cases hyz : x = z
          · subst hyz
            rw [if_pos rfl] at hbc ⊢
            exact ih ys zs hab hbc
          · rw [if_neg hyz] at hbc ⊢
            exact hbc
        · rw [if_neg hxy] at hab
          simp only [decide_eq_true_eq] at hab
          by_cases hyz : y = z
          · subst hyz
            rw [if_neg hxy]
            simpa using hab
          · rw [if_neg hyz] at hbc
            simp only [decide_eq_true_eq] at hbc
            have hxz : x ≠ z := by
              intro he
              subst he
              exact hyz (char_toNat_inj (by omega))
            rw [if_neg hxz]
            simp only [decide_eq_true_eq]
            omega


theorem keyLe_total : ∀ a b : Json, keyLe a b = true ∨ keyLe b a = true :=
  fun a b => charListLe_total _ _

theorem keyLe_trans : ∀ a b c : Json,
    keyLe a b = true → keyLe b c = true → keyLe a c = true :=
  fun _ _ _ hab hbc => charListLe_trans _ _ _ hab hbc

/-! ### Index (`by_key`) lemmas -/

/-- Association-list lookup used throughout the tree lemmas. -/
theorem upsert_keys (acc : List (Json × Rec)) (k : Json) (r : Rec) :
    (upsert acc k r).map Prod.fst =
      if acc.any (fun kv => kv.1 = k) then acc.map Prod.fst
      else acc.map Prod.fst ++ [k] := by
  unfold upsert
  by_cases h : acc.any (fun kv => kv.1 = k)
  · rw [if_pos h, if_pos h, List.map_map]
    apply List.map_congr_left
    intro kv _
    by_cases hk : kv.1 = k
    · simp [hk]
    · simp [hk]
  · rw [if_neg h, if_neg h]
    simp




theorem alookup_cons {β : Type} (k0 : Json) (v : β) (t : List (Json × β)) (k' : Json) :
    alookup ((k0, v) :: t) k' = if k0 = k' then some v else alookup t k' := by
  by_cases h : k0 = k'
  · simp [alookup, List.find?_cons, h]
  · simp [alookup, List.find?_cons, h]

theorem alookup_mapReplace (acc : List (Json × Rec)) (k : Json) (r : Rec) (k' : Json) :
    alookup (acc.map (fun kv => if kv.1 = k then (k, r) else kv)) k' =
      if k' = k then (if acc.any (fun kv => kv.1 = k) then some r else none)
      else alookup acc k' := by
  induction acc with
  | nil => by_cases h : k' = k <;> simp [alookup, h]
  | cons a t ih =>
    obtain ⟨a1, a2⟩ := a
    simp only [List.map_cons]
    by_cases ha : a1 = k
    · simp only [if_pos ha]
      rw [alookup_cons]
      by_cases hk : k = k'
      · rw [if_pos hk, if_pos hk.symm, if_pos (by simp [List.any_cons, ha])]
      · rw [if_neg hk, ih, if_neg (fun hc : k' = k => hk hc.symm),
          if_neg (fun hc : k' = k => hk hc.symm), alookup_cons,
          if_neg (fun hc : a1 = k' => hk (by rw [← hc, ha]))]
    · simp only [if_neg ha]
      rw [alookup_cons]
      by_cases hak : a1 = k'
      · rw [if_pos hak, if_neg (fun hc : k' = k => ha (by rw [hak, hc])),
          alookup_cons, if_pos hak]
      · rw [if_neg hak, ih]
        by_cases hk : k' = k
        · rw [if_pos hk, if_pos hk, List.any_cons, decide_eq_false ha, Bool.false_or]
        · rw [if_neg hk, if_neg hk, alookup_cons, if_neg hak]

theorem alookup_append_single {β : Type} (acc : List (Json × β)) (k : Json) (v : β) (k' : Json) :
    alookup (acc ++ [(k, v)]) k' =
      match alookup acc k' with
      | some w => some w
      | none => if k = k' then some v else none := by
  induction acc with
  | nil =>
    simp only [List.nil_append]
    rw [alookup_cons]
    by_cases h : k = k' <;> simp [alookup, h]
  | cons a t ih =>
    obtain ⟨a1, a2⟩ := a
    simp only [List.cons_append]
    rw [alookup_cons, alookup_cons]
    by_cases hak : a1 = k'
    · rw [if_pos hak, if_pos hak]
    · rw [if_neg hak, if_neg hak, ih]

theorem alookup_eq_none_of_not_any {β : Type} (acc : List (Json × β)) (k : Json)
    (h : ¬ (acc.any (fun kv => kv.1 = k)) = true) : alookup acc k = none := by
  rw [alookup, List.find?_eq_none.mpr]
  · rfl
  · intro kv hmem
    simp only [List.any_eq_true, not_exists] at h
    intro hc
    exact (h kv) ⟨hmem, hc⟩

theorem alookup_upsert (acc : List (Json × Rec)) (k : Json) (r : Rec) (k' : Json) :
    alookup (upsert acc k r) k' = if k' = k then some r else alookup acc k' := by
  unfold upsert
  by_cases h : acc.any (fun kv => kv.1 = k)
  · rw [if_pos h, alookup_mapReplace]
    by_cases hk : k' = k
    · rw [if_pos hk, if_pos hk, if_pos h]
    · rw [if_neg hk, if_neg hk]
  · rw [if_neg h, alookup_append_single]
    by_cases hk : k' = k
    · subst hk
      rw [alookup_eq_none_of_not_any acc k' h]
    · rw [if_neg hk]
      have hkk : ¬ k = k' := fun hc => hk hc.symm
      cases halk : alookup acc k' with
      | some w => rfl
      | none => rw [if_neg hkk]


theorem upsert_keys_nodup {acc : List (Json × Rec)} {k : Json} {r : Rec}
    (h : (acc.map Prod.fst).Nodup) : ((upsert acc k r).map Prod.fst).Nodup := by
  rw [upsert_keys]
  by_cases ha : acc.any (fun kv => kv.1 = k)
  · rw [if_pos ha]; exact h
  · rw [if_neg ha]
    rw [List.nodup_append]
    refine ⟨h, List.nodup_singleton _, ?_⟩
    intro x hx hx2
    simp only [List.mem_singleton] at hx2
    subst hx2
    simp only [List.mem_map] at hx
    obtain ⟨kv, hkv, hfst⟩ := hx
    exact ha (List.any_eq_true.mpr ⟨kv, hkv, by simp [hfst]⟩)

theorem indexIssues_keys_nodup (issues : List Rec) :
    ((indexIssues issues).map Prod.fst).Nodup := by
  unfold indexIssues
  suffices h : ∀ acc : List (Json × Rec), (acc.map Prod.fst).Nodup →
      ((issues.foldl (fun acc issue => upsert acc (recKey issue) issue) acc).map Prod.fst).Nodup by
    exact h [] (by simp)
  induction issues with
  | nil => intro acc h; exact h
  | cons i rest ih =>
    intro acc h
    exact ih _ (upsert_keys_nodup h)

theorem foldl_lastMatch_init (issues : List Rec) (k : Json) (o : Option Rec) :
    issues.foldl (fun o r => if recKey r = k then some r else o) o =
      match issues.foldl (fun o r => if recKey r = k then some r else o) none with
      | some r => some r
      | none => o := by
  induction issues generalizing o with
  | nil => rfl
  | cons i rest ih =>
    simp only [List.foldl_cons]
    rw [ih, ih (if recKey i = k then some i else none)]
    cases hF : rest.foldl (fun o r => if recKey r = k then some r else o) none with
    | some r => rfl
    | none =>
      by_cases hi : recKey i = k
      · rw [if_pos hi, if_pos hi]
      · rw [if_neg hi, if_neg hi]

theorem lastMatch_cons (i : Rec) (rest : List Rec) (k : Json) :
    lastMatch (i :: rest) k =
      match lastMatch rest k with
      | some r => some r
      | none => if recKey i = k then some i else none := by
  unfold lastMatch
  simp only [List.foldl_cons]
  rw [foldl_lastMatch_init]

theorem indexIssues_alookup (issues : List Rec) (k : Json) :
    alookup (indexIssues issues) k = lastMatch issues k := by
  unfold indexIssues
  suffices h : ∀ acc : List (Json × Rec),
      alookup (issues.foldl (fun acc issue => upsert acc (recKey issue) issue) acc) k =
        match lastMatch issues k with
        | some r => some r
        | none => alookup acc k by
    rw [h []]
    cases lastMatch issues k with
    | some r => rfl
    | none => simp [alookup]
  induction issues with
  | nil => intro acc; rfl
  | cons i rest ih =>
    intro acc
    simp only [List.foldl_cons]
    rw [ih, lastMatch_cons]
    cases hr : lastMatch rest k with
    | some r => rfl
    | none =>
      rw [alookup_upsert]
      by_cases hi : recKey i = k
      · rw [if_pos hi, if_pos hi.symm]
      · rw [if_neg hi, if_neg (fun hc : k = recKey i => hi hc.symm)]

theorem alookup_of_mem_nodup {β : Type} {m : List (Json × β)} {k : Json} {v : β}
    (hnd : (m.map Prod.fst).Nodup) (hmem : (k, v) ∈ m) : alookup m k = some v := by
  induction m with
  | nil => simp at hmem
  | cons a t ih =>
    obtain ⟨a1, a2⟩ := a
    rw [alookup_cons]
    rcases List.mem_cons.mp hmem with heq | hmem2
    · injection heq with h1 h2
      subst h1; subst h2
      rw [if_pos rfl]
    · by_cases hak : a1 = k
      · subst hak
        exfalso
        simp only [List.map_cons, List.nodup_cons] at hnd
        exact hnd.1 (List.mem_map.mpr ⟨(a1, v), hmem2, rfl⟩)
      · rw [if_neg hak]
        simp only [List.map_cons, List.nodup_cons] at hnd
        exact ih hnd.2 hmem2

theorem mem_of_alookup {β : Type} {m : List (Json × β)} {k : Json} {v : β}
    (h : alookup m k = some v) : (k, v) ∈ m := by
  unfold alookup at h
  cases hf : m.find? (fun kv => kv.1 = k) with
  | none => rw [hf] at h; simp at h
  | some kv =>
    rw [hf] at h
    simp only [Option.map_some'] at h
    injection h with h
    have hmem := List.mem_of_find?_eq_some hf
    have hk := List.find?_some hf
    simp only [decide_eq_true_eq] at hk
    have : kv = (k, v) := by
      obtain ⟨kv1, kv2⟩ := kv
      simp only at hk h
      rw [hk, h]
    rw [← this]
    exact hmem


theorem lastMatch_key : ∀ (issues : List Rec) (k : Json) (r : Rec),
    lastMatch issues k = some r → recKey r = k := by
  intro issues
  induction issues with
  | nil => intro k r h; exact Option.noConfusion h
  | cons i rest ih =>
    intro k r h
    rw [lastMatch_cons] at h
    cases hr : lastMatch rest k with
    | some r2 =>
      rw [hr] at h
      injection h with h
      exact h ▸ ih k r2 hr
    | none =>
      rw [hr] at h
      by_cases hi : recKey i = k
      · rw [if_pos hi] at h; injection h with h; rw [← h]; exact hi
      · rw [if_neg hi] at h; exact Option.noConfusion h

theorem lastMatch_mem : ∀ (issues : List Rec) (k : Json) (r : Rec),
    lastMatch issues k = some r → r ∈ issues := by
  intro issues
  induction issues with
  | nil => intro k r h; exact Option.noConfusion h
  | cons i rest ih =>
    intro k r h
    rw [lastMatch_cons] at h
    cases hr : lastMatch rest k with
    | some r2 =>
      rw [hr] at h
      injection h with h
      exact List.mem_cons_of_mem i (h ▸ ih k r2 hr)
    | none =>
      rw [hr] at h
      by_cases hi : recKey i = k
      · rw [if_pos hi] at h
        injection h with h
        rw [← h]
        exact List.mem_cons_self i rest
      · rw [if_neg hi] at h; exact Option.noConfusion h

theorem lastMatch_nodup (issues : List Rec) (hnd : (issues.map recKey).Nodup) :
    ∀ r ∈ issues, lastMatch issues (recKey r) = some r := by
  induction issues with
  | nil => intro r hr; simp at hr
  | cons i rest ih =>
    intro r hr
    rw [lastMatch_cons]
    simp only [List.map_cons, List.nodup_cons] at hnd
    rcases List.mem_cons.mp hr with heq | hmem
    · subst heq
      cases hlm : lastMatch rest (recKey r) with
      | some r2 =>
        exact absurd
          (List.mem_map.mpr ⟨r2, lastMatch_mem rest _ r2 hlm, lastMatch_key rest _ r2 hlm⟩)
          hnd.1
      | none => rw [if_pos rfl]
    · cases hlm : lastMatch rest (recKey r) with
      | some r2 =>
        rw [ih hnd.2 r hmem] at hlm
        injection hlm with h
        rw [h]
      | none =>
        rw [ih hnd.2 r hmem] at hlm
        exact Option.noConfusion hlm

theorem foldl_upsert_eq_append : ∀ (issues : List Rec) (acc : List (Json × Rec)),
    (issues.map recKey).Nodup →
    (∀ r ∈ issues, ¬ acc.any (fun kv => kv.1 = recKey r) = true) →
    issues.foldl (fun acc issue => upsert acc (recKey issue) issue) acc
      = acc ++ issues.map (fun r => (recKey r, r)) := by
  intro issues
  induction issues with
  | nil => intro acc _ _; simp
  | cons i rest ih =>
    intro acc hnd hdis
    simp only [List.foldl_cons, List.map_cons]
    have hacc : ¬ acc.any (fun kv => kv.1 = recKey i) = true :=
      hdis i (List.mem_cons_self i rest)
    rw [upsert, if_neg hacc]
    simp only [List.map_cons, List.nodup_cons] at hnd
    rw [ih (acc ++ [(recKey i, i)]) hnd.2 ?dis]
    · simp
    case dis =>
      intro r hr hany
      rw [List.any_append, Bool.or_eq_true] at hany
      rcases hany with h1 | h2
      · exact hdis r (List.mem_cons_of_mem i hr) h1
      · simp only [List.any_cons, List.any_nil, Bool.or_false, decide_eq_true_eq] at h2
        exact hnd.1 (List.mem_map.mpr ⟨r, hr, h2.symm⟩)

theorem indexIssues_eq_map (issues : List Rec) (hnd : (issues.map recKey).Nodup) :
    indexIssues issues = issues.map (fun r => (recKey r, r)) := by
  unfold indexIssues
  rw [foldl_upsert_eq_append issues [] hnd (by intro r _ h; simp at h)]
  simp

theorem alookup_isSome_any {β : Type} (m : List (Json × β)) (k : Json) :
    (alookup m k).isSome = m.any (fun kv => kv.1 = k) := by
  induction m with
  | nil => rfl
  | cons a t ih =>
    obtain ⟨a1, a2⟩ := a
    rw [alookup_cons]
    by_cases h : a1 = k
    · simp [if_pos h, List.any_cons, h]
    · simp only [if_neg h, List.any_cons, decide_eq_true_eq, h, decide_False,
        Bool.false_or]
      exact ih


theorem attachAll_eq (byKey : List (Json × Rec)) :
    attachAll byKey =
      byKey.foldl (attachStep byKey)
        (byKey.map (fun kv => (kv.1, ([] : List Json))), [], 0) := rfl

theorem attachStep_eq (byKey : List (Json × Rec)) (m : List (Json × List Json))
    (roots : List Json) (orph : Nat) (kv : Json × Rec) :
    attachStep byKey (m, roots, orph) kv =
      match attachTarget byKey kv with
      | some pk => (appendChild m pk kv.1, roots, orph)
      | none =>
        (m, roots ++ [kv.1], if (parentKeyOf kv.2).truthy then orph + 1 else orph) := by
  unfold attachStep attachTarget
  dsimp only
  by_cases h : (parentKeyOf kv.2).truthy = true ∧ (byKey.any fun e => decide (e.1 = parentKeyOf kv.2)) = true
  · rw [if_pos h, if_pos h]
  · rw [if_neg h, if_neg h]

theorem alookup_appendChild_ne (m : List (Json × List Json)) (p c q : Json)
    (hq : ¬ q = p) :
    alookup (appendChild m p c) q = alookup m q := by
  induction m with
  | nil => rfl
  | cons a t ih =>
    obtain ⟨a1, a2⟩ := a
    unfold appendChild
    simp only [List.map_cons]
    by_cases h1 : a1 = p
    · rw [if_pos h1]
      rw [alookup_cons, alookup_cons]
      have h2 : ¬ a1 = q := fun hc => hq (hc ▸ h1)
      rw [if_neg h2, if_neg h2]
      exact ih
    · rw [if_neg h1]
      rw [alookup_cons, alookup_cons]
      by_cases h2 : a1 = q
      · rw [if_pos h2, if_pos h2]
      · rw [if_neg h2, if_neg h2]
        exact ih

theorem alookup_appendChild_eq (m : List (Json × List Json)) (p c : Json) :
    alookup (appendChild m p c) p = (alookup m p).map (fun l => l ++ [c]) := by
  induction m with
  | nil => rfl
  | cons a t ih =>
    obtain ⟨a1, a2⟩ := a
    unfold appendChild
    simp only [List.map_cons]
    by_cases h1 : a1 = p
    · rw [if_pos h1]
      rw [alookup_cons, alookup_cons]
      rw [if_pos h1, if_pos h1]
      rfl
    · rw [if_neg h1]
      rw [alookup_cons, alookup_cons]
      rw [if_neg h1, if_neg h1]
      exact ih

theorem attachGo_roots (byKey : List (Json × Rec)) :
    ∀ (rest : List (Json × Rec)) (m0 : List (Json × List Json))
      (roots0 : List Json) (orph0 : Nat),
    (rest.foldl (attachStep byKey) (m0, roots0, orph0)).2.1
      = roots0 ++ (rest.filter (fun kv => attachTarget byKey kv = none)).map Prod.fst := by
  intro rest
  induction rest with
  | nil => intro m0 roots0 orph0; simp
  | cons kv rest ih =>
    intro m0 roots0 orph0
    simp only [List.foldl_cons, List.filter_cons]
    rw [attachStep_eq]
    cases ht : attachTarget byKey kv with
    | some pk =>
      dsimp only
      rw [ih]
      simp
    | none =>
      dsimp only
      rw [ih]
      simp

theorem attachGo_childMap (byKey : List (Json × Rec)) :
    ∀ (rest : List (Json × Rec)) (m0 : List (Json × List Json))
      (roots0 : List Json) (orph0 : Nat) (q : Json),
    alookup (rest.foldl (attachStep byKey) (m0, roots0, orph0)).1 q
      = (alookup m0 q).map
          (fun l =>
            l ++ (rest.filter (fun kv => attachTarget byKey kv = some q)).map Prod.fst) := by
  intro rest
  induction rest with
  | nil =>
    intro m0 roots0 orph0 q
    show alookup m0 q = _
    cases alookup m0 q <;> simp
  | cons kv rest ih =>
    intro m0 roots0 orph0 q
    simp only [List.foldl_cons, List.filter_cons]
    rw [attachStep_eq]
    cases ht : attachTarget byKey kv with
    | some pk =>
      dsimp only
      rw [ih]
      by_cases hq : q = pk
      · subst hq
        rw [alookup_appendChild_eq]
        cases alookup m0 q <;> simp [ht]
      · rw [alookup_appendChild_ne m0 pk kv.1 q hq]
        have hne : ¬ attachTarget byKey kv = some q := by
          rw [ht]
          intro hc
          injection hc with hc
          exact hq hc.symm
        have hqp : ¬ pk = q := fun hc => hq hc.symm
        cases alookup m0 q <;> simp [hne, hqp]
    | none =>
      dsimp only
      rw [ih]
      have hne : ¬ attachTarget byKey kv = some q := by rw [ht]; intro hc; exact Option.noConfusion hc
      cases alookup m0 q <;> simp [hne]


theorem recordOf_alookup (g : TreeGraph) (k : Json) :
    recordOf g k = (alookup g.byKey k).getD [] := by
  unfold recordOf alookup
  cases g.byKey.find? (fun kv => kv.1 = k) <;> rfl

theorem childrenOf_alookup (g : TreeGraph) (k : Json) :
    childrenOf g k = (alookup g.childMap k).getD [] := by
  unfold childrenOf alookup
  cases g.childMap.find? (fun kv => kv.1 = k) <;> rfl

theorem alookup_map_isort (m : List (Json × List Json)) (k : Json) :
    alookup (m.map (fun q => (q.1, isort keyLe q.2))) k
      = (alookup m k).map (isort keyLe) := by
  induction m with
  | nil => rfl
  | cons a t ih =>
    obtain ⟨a1, a2⟩ := a
    simp only [List.map_cons]
    rw [alookup_cons, alookup_cons]
    by_cases h : a1 = k
    · rw [if_pos h, if_pos h]; rfl
    · rw [if_neg h, if_neg h]; exact ih

theorem alookup_map_const_nil (m : List (Json × Rec)) (k : Json) :
    alookup (m.map (fun kv => (kv.1, ([] : List Json)))) k
      = if m.any (fun kv => kv.1 = k) then some [] else none := by
  induction m with
  | nil => rfl
  | cons a t ih =>
    obtain ⟨a1, a2⟩ := a
    simp only [List.map_cons, List.any_cons]
    rw [alookup_cons]
    by_cases h : a1 = k
    · rw [if_pos h]; simp [h]
    · rw [if_neg h, ih]
      simp only [decide_eq_false h, Bool.false_or]

theorem buildTree_eq (issues : List Rec) :
    buildTree issues =
      { byKey := indexIssues issues
        childMap :=
          ((attachAll (indexIssues issues)).1).map (fun q => (q.1, isort keyLe q.2))
        roots := isort keyLe ((attachAll (indexIssues issues)).2.1)
        orphanCount := (attachAll (indexIssues issues)).2.2 } := by
  unfold buildTree
  dsimp only

theorem buildTree_byKey (issues : List Rec) :
    (buildTree issues).byKey = indexIssues issues := by
  rw [buildTree_eq]

theorem buildTree_roots (issues : List Rec) :
    (buildTree issues).roots =
      isort keyLe
        (((indexIssues issues).filter
          (fun kv => attachTarget (indexIssues issues) kv = none)).map Prod.fst) := by
  rw [buildTree_eq]
  have hgo := attachGo_roots (indexIssues issues) (indexIssues issues)
    ((indexIssues issues).map (fun kv => (kv.1, ([] : List Json)))) [] 0
  rw [← attachAll_eq] at hgo
  show isort keyLe ((attachAll (indexIssues issues)).2.1) = _
  rw [hgo, List.nil_append]

theorem buildTree_childrenOf (issues : List Rec) (k : Json) :
    childrenOf (buildTree issues) k =
      if (indexIssues issues).any (fun kv => kv.1 = k) then
        isort keyLe
          (((indexIssues issues).filter
            (fun kv => attachTarget (indexIssues issues) kv = some k)).map Prod.fst)
      else [] := by
  rw [childrenOf_alookup]
  have hcm : (buildTree issues).childMap
      = ((attachAll (indexIssues issues)).1).map (fun q => (q.1, isort keyLe q.2)) := by
    rw [buildTree_eq]
  rw [hcm, alookup_map_isort]
  have hgo := attachGo_childMap (indexIssues issues) (indexIssues issues)
    ((indexIssues issues).map (fun kv => (kv.1, ([] : List Json)))) [] 0 k
  rw [← attachAll_eq] at hgo
  rw [hgo, alookup_map_const_nil]
  by_cases h : (indexIssues issues).any (fun kv => kv.1 = k) = true
  · rw [if_pos h, if_pos h]
    simp
  · rw [if_neg h, if_neg h]
    rfl

theorem attachTarget_eq_resolvedParent (byKey : List (Json × Rec))
    (hnd : (byKey.map Prod.fst).Nodup) (kv : Json × Rec) (hkv : kv ∈ byKey) :
    attachTarget byKey kv = resolvedParent byKey kv.1 := by
  unfold resolvedParent
  rw [alookup_of_mem_nodup hnd (show (kv.1, kv.2) ∈ byKey from by simpa using hkv)]

theorem attachTarget_some_any (byKey : List (Json × Rec)) (kv : Json × Rec) (p : Json)
    (h : attachTarget byKey kv = some p) :
    byKey.any (fun e => e.1 = p) = true ∧ p = parentKeyOf kv.2 ∧
      (parentKeyOf kv.2).truthy = true := by
  unfold attachTarget at h
  by_cases hc : (parentKeyOf kv.2).truthy = true ∧
      (byKey.any fun e => decide (e.1 = parentKeyOf kv.2)) = true
  · rw [if_pos hc] at h
    injection h with h
    exact ⟨h ▸ hc.2, h.symm, hc.1⟩
  · rw [if_neg hc] at h
    exact Option.noConfusion h

theorem resolvedParent_some (byKey : List (Json × Rec)) (c p : Json)
    (h : resolvedParent byKey c = some p) :
    ∃ r, alookup byKey c = some r ∧ attachTarget byKey (c, r) = some p := by
  unfold resolvedParent at h
  cases ha : alookup byKey c with
  | none => rw [ha] at h; exact Option.noConfusion h
  | some r =>
    rw [ha] at h
    exact ⟨r, rfl, h⟩

theorem mem_childrenOf_iff (issues : List Rec) (c p : Json) :
    c ∈ childrenOf (buildTree issues) p ↔
      resolvedParent (indexIssues issues) c = some p := by
  have hnd := indexIssues_keys_nodup issues
  rw [buildTree_childrenOf]
  constructor
  · intro hm
    by_cases h : (indexIssues issues).any (fun kv => kv.1 = p) = true
    · rw [if_pos h] at hm
      rw [(isort_perm keyLe _).mem_iff] at hm
      obtain ⟨kv, hkv, hfst⟩ := List.mem_map.mp hm
      obtain ⟨hkvmem, hkvp⟩ := List.mem_filter.mp hkv
      rw [← hfst, ← attachTarget_eq_resolvedParent _ hnd kv hkvmem]
      exact of_decide_eq_true hkvp
    · rw [if_neg h] at hm
      simp at hm
  · intro hr
    obtain ⟨r, ha, hat⟩ := resolvedParent_some _ _ _ hr
    obtain ⟨hany, hp, htr⟩ := attachTarget_some_any _ _ _ hat
    rw [if_pos hany]
    rw [(isort_perm keyLe _).mem_iff]
    refine List.mem_map.mpr ⟨(c, r), List.mem_filter.mpr ⟨mem_of_alookup ha, ?_⟩, rfl⟩
    exact decide_eq_true hat

theorem mem_roots_iff (issues : List Rec) (c : Json) :
    c ∈ (buildTree issues).roots ↔
      (indexIssues issues).any (fun kv => kv.1 = c) = true ∧
      resolvedParent (indexIssues issues) c = none := by
  have hnd := indexIssues_keys_nodup issues
  rw [buildTree_roots, (isort_perm keyLe _).mem_iff]
  constructor
  · intro hm
    obtain ⟨kv, hkv, hfst⟩ := List.mem_map.mp hm
    obtain ⟨hkvmem, hkvp⟩ := List.mem_filter.mp hkv
    subst hfst
    refine ⟨List.any_eq_true.mpr ⟨kv, hkvmem, by simp⟩, ?_⟩
    rw [← attachTarget_eq_resolvedParent _ hnd kv hkvmem]
    exact of_decide_eq_true hkvp
  · rintro ⟨hany, hres⟩
    obtain ⟨kv, hkvmem, hkv1⟩ := List.any_eq_true.mp hany
    have hc : kv.1 = c := of_decide_eq_true hkv1
    refine List.mem_map.mpr ⟨kv, List.mem_filter.mpr ⟨hkvmem, ?_⟩, hc⟩
    apply decide_eq_true
    rw [attachTarget_eq_resolvedParent _ hnd kv hkvmem, hc]
    exact hres

theorem isort_nodup {α : Type} (le : α → α → Bool) (l : List α) (h : l.Nodup) :
    (isort le l).Nodup :=
  ((isort_perm le l).nodup_iff).mpr h

theorem childrenOf_buildTree_nodup (issues : List Rec) (p : Json) :
    (childrenOf (buildTree issues) p).Nodup := by
  rw [buildTree_childrenOf]
  by_cases h : (indexIssues issues).any (fun kv => kv.1 = p) = true
  · rw [if_pos h]
    apply isort_nodup
    exact List.Nodup.sublist ((List.filter_sublist _).map Prod.fst)
      (indexIssues_keys_nodup issues)
  · rw [if_neg h]
    exact List.nodup_nil

theorem roots_buildTree_nodup (issues : List Rec) :
    ((buildTree issues).roots).Nodup := by
  rw [buildTree_roots]
  apply isort_nodup
  exact List.Nodup.sublist ((List.filter_sublist _).map Prod.fst)
    (indexIssues_keys_nodup issues)


theorem piter_succ (byKey : List (Json × Rec)) (n : Nat) (k : Json) :
    piter byKey (n + 1) k =
      match resolvedParent byKey k with
      | none => none
      | some p => piter byKey n p := rfl

theorem piter_add (byKey : List (Json × Rec)) (a b : Nat) (k : Json) :
    piter byKey (a + b) k =
      match piter byKey b k with
      | some c => piter byKey a c
      | none => none := by
  induction b generalizing k with
  | zero => rfl
  | succ n ih =>
    show piter byKey (a + n + 1) k = _
    rw [piter_succ, piter_succ]
    cases resolvedParent byKey k with
    | none => rfl
    | some p => exact ih p

theorem piter_cycle_mul (byKey : List (Json × Rec)) (k : Json) (m : Nat)
    (h : piter byKey m k = some k) : ∀ q, piter byKey (q * m) k = some k := by
  intro q
  induction q with
  | zero =>
    rw [Nat.zero_mul]
    rfl
  | succ n ih =>
    have he : (n + 1) * m = m + n * m := by ring
    rw [he, piter_add, ih]
    exact h

theorem piter_terminate_no_cycle (byKey : List (Json × Rec)) (k : Json) (N : Nat)
    (hterm : piter byKey N k = none) (m : Nat) (hm : 1 ≤ m)
    (hcyc : piter byKey m k = some k) : False := by
  have h1 : piter byKey (N * m) k = some k := piter_cycle_mul byKey k m hcyc N
  have h0 : N * 1 ≤ N * m := Nat.mul_le_mul_left N hm
  have h2 : N * m = (N * m - N) + N := by omega
  rw [h2, piter_add, hterm] at h1
  exact Option.noConfusion h1

theorem chainLenOpt_succ (byKey : List (Json × Rec)) (fuel : Nat) (k : Json) :
    chainLenOpt byKey (fuel + 1) k =
      match resolvedParent byKey k with
      | none => some 0
      | some p => (chainLenOpt byKey fuel p).map (· + 1) := rfl

theorem chainLenOpt_lt (byKey : List (Json × Rec)) :
    ∀ (fuel : Nat) (k : Json) (d : Nat), chainLenOpt byKey fuel k = some d → d < fuel := by
  intro fuel
  induction fuel with
  | zero => intro k d h; exact Option.noConfusion h
  | succ n ih =>
    intro k d h
    rw [chainLenOpt_succ] at h
    cases hr : resolvedParent byKey k with
    | none =>
      rw [hr] at h
      injection h with h
      omega
    | some p =>
      rw [hr] at h
      dsimp only at h
      cases hc : chainLenOpt byKey n p with
      | none => rw [hc] at h; exact Option.noConfusion h
      | some d2 =>
        rw [hc] at h
        simp only [Option.map_some'] at h
        injection h with h
        have := ih p d2 hc
        omega

theorem chainLenOpt_mono (byKey : List (Json × Rec)) :
    ∀ (fuel fuel' : Nat) (k : Json) (d : Nat), fuel ≤ fuel' →
      chainLenOpt byKey fuel k = some d → chainLenOpt byKey fuel' k = some d := by
  intro fuel
  induction fuel with
  | zero => intro _ k d _ h; exact Option.noConfusion h
  | succ n ih =>
    intro fuel' k d hle h
    obtain ⟨m, rfl⟩ : ∃ m, fuel' = m + 1 := ⟨fuel' - 1, by omega⟩
    rw [chainLenOpt_succ] at h ⊢
    cases hr : resolvedParent byKey k with
    | none =>
      rw [hr] at h
      exact h
    | some p =>
      rw [hr] at h
      dsimp only at h ⊢
      cases hc : chainLenOpt byKey n p with
      | none => rw [hc] at h; exact Option.noConfusion h
      | some d2 =>
        rw [hc] at h
        rw [ih m p d2 (by omega) hc]
        exact h

theorem chainLenOpt_piter (byKey : List (Json × Rec)) :
    ∀ (fuel : Nat) (k : Json) (d : Nat), chainLenOpt byKey fuel k = some d →
      ∃ r, piter byKey d k = some r ∧ resolvedParent byKey r = none := by
  intro fuel
  induction fuel with
  | zero => intro k d h; exact Option.noConfusion h
  | succ n ih =>
    intro k d h
    rw [chainLenOpt_succ] at h
    cases hr : resolvedParent byKey k with
    | none =>
      rw [hr] at h
      injection h with h
      exact ⟨k, by rw [← h]; rfl, hr⟩
    | some p =>
      rw [hr] at h
      dsimp only at h
      cases hc : chainLenOpt byKey n p with
      | none => rw [hc] at h; exact Option.noConfusion h
      | some d2 =>
        rw [hc] at h
        simp only [Option.map_some'] at h
        injection h with h
        obtain ⟨r, hp, hrr⟩ := ih p d2 hc
        refine ⟨r, ?_, hrr⟩
        rw [← h, piter_succ, hr]
        exact hp

theorem resolvable_chainLenOpt (byKey : List (Json × Rec)) (hres : resolvable byKey = true)
    (k : Json) (hk : byKey.any (fun kv => kv.1 = k) = true) :
    ∃ d, chainLenOpt byKey (byKey.length + 1) k = some d := by
  unfold resolvable at hres
  rw [List.all_eq_true] at hres
  have hkm : k ∈ byKey.map Prod.fst := by
    obtain ⟨kv, hkv, he⟩ := List.any_eq_true.mp hk
    exact List.mem_map.mpr ⟨kv, hkv, of_decide_eq_true he⟩
  have hs := hres k hkm
  cases hc : chainLenOpt byKey (byKey.length + 1) k with
  | none => rw [hc] at hs; simp at hs
  | some d => exact ⟨d, rfl⟩

theorem resolvedParent_target_any (byKey : List (Json × Rec)) (k p : Json)
    (h : resolvedParent byKey k = some p) :
    byKey.any (fun e => e.1 = p) = true := by
  obtain ⟨r, _, hat⟩ := resolvedParent_some byKey k p h
  exact (attachTarget_some_any byKey (k, r) p hat).1

theorem resolvedParent_source_any (byKey : List (Json × Rec)) (k p : Json)
    (h : resolvedParent byKey k = some p) :
    byKey.any (fun e => e.1 = k) = true := by
  obtain ⟨r, ha, _⟩ := resolvedParent_some byKey k p h
  rw [← alookup_isSome_any, ha]
  rfl

theorem chainLen_child (byKey : List (Json × Rec)) (hres : resolvable byKey = true)
    (c p : Json) (h : resolvedParent byKey c = some p) :
    chainLen byKey c = chainLen byKey p + 1 := by
  obtain ⟨dc, hdc⟩ := resolvable_chainLenOpt byKey hres c
    (resolvedParent_source_any byKey c p h)
  rw [chainLenOpt_succ, h] at hdc
  dsimp only at hdc
  cases hc : chainLenOpt byKey byKey.length p with
  | none => rw [hc] at hdc; exact Option.noConfusion hdc
  | some dp =>
    unfold chainLen
    rw [chainLenOpt_succ, h]
    dsimp only
    rw [hc]
    have hp2 : chainLenOpt byKey (byKey.length + 1) p = some dp :=
      chainLenOpt_mono byKey byKey.length (byKey.length + 1) p dp (by omega) hc
    rw [hp2]
    rfl

theorem chainLen_root (byKey : List (Json × Rec)) (k : Json)
    (h : resolvedParent byKey k = none) :
    chainLen byKey k = 0 := by
  unfold chainLen
  rw [chainLenOpt_succ, h]
  rfl

theorem chainLen_le (byKey : List (Json × Rec)) (hres : resolvable byKey = true)
    (k : Json) (hk : byKey.any (fun kv => kv.1 = k) = true) :
    chainLen byKey k ≤ byKey.length := by
  obtain ⟨d, hd⟩ := resolvable_chainLenOpt byKey hres k hk
  have hlt := chainLenOpt_lt byKey (byKey.length + 1) k d hd
  unfold chainLen
  rw [hd]
  show d ≤ byKey.length
  omega

theorem childPath_piter (issues : List Rec) (p c : Json)
    (h : ChildPath (buildTree issues) p c) :
    ∃ n, 1 ≤ n ∧ piter (indexIssues issues) n c = some p := by
  induction h with
  | single hmem =>
    rename_i p2 c2
    refine ⟨1, le_refl 1, ?_⟩
    have hrc := (mem_childrenOf_iff issues c2 p2).mp hmem
    show piter (indexIssues issues) (0 + 1) c2 = some p2
    rw [piter_succ, hrc]
    rfl
  | cons hmem hpath ih =>
    rename_i p2 c2 d2
    obtain ⟨n, hn1, hn⟩ := ih
    refine ⟨n + 1, by omega, ?_⟩
    have heq : n + 1 = 1 + n := by omega
    rw [heq, piter_add, hn]
    have hrc := (mem_childrenOf_iff issues c2 p2).mp hmem
    show piter (indexIssues issues) (0 + 1) c2 = some p2
    rw [piter_succ, hrc]
    rfl

theorem reachable_piter_none (issues : List Rec) (k : Json)
    (h : Reachable (buildTree issues) k) :
    ∃ N, piter (indexIssues issues) N k = none := by
  rcases h with hk | ⟨r, hr, hpath⟩
  · refine ⟨1, ?_⟩
    have hres := ((mem_roots_iff issues k).mp hk).2
    show piter (indexIssues issues) (0 + 1) k = none
    rw [piter_succ, hres]
  · obtain ⟨n, hn1, hn⟩ := childPath_piter issues r k hpath
    have hroot := ((mem_roots_iff issues r).mp hr).2
    refine ⟨1 + n, ?_⟩
    rw [piter_add, hn]
    show piter (indexIssues issues) (0 + 1) r = none
    rw [piter_succ, hroot]

theorem reachable_acyclic (issues : List Rec) (k : Json)
    (hreach : Reachable (buildTree issues) k)
    (hcyc : ChildPath (buildTree issues) k k) : False := by
  obtain ⟨N, hN⟩ := reachable_piter_none issues k hreach
  obtain ⟨m, hm1, hm⟩ := childPath_piter issues k k hcyc
  exact piter_terminate_no_cycle (indexIssues issues) k N hN m hm1 hm


theorem filter_length_one {α : Type} (l : List α) (p : α → Bool) (hnd : l.Nodup)
    (huniq : ∀ a ∈ l, p a = true → ∀ b ∈ l, p b = true → a = b)
    (c : α) (hc : c ∈ l) (hpc : p c = true) :
    (l.filter p).length = 1 := by
  have hcf : c ∈ l.filter p := List.mem_filter.mpr ⟨hc, hpc⟩
  have hall : ∀ x ∈ l.filter p, x = c := by
    intro x hx
    obtain ⟨hxl, hxp⟩ := List.mem_filter.mp hx
    exact huniq x hxl hxp c hc hpc
  have hndf : (l.filter p).Nodup := List.Nodup.filter p hnd
  cases hf : l.filter p with
  | nil => rw [hf] at hcf; simp at hcf
  | cons x t =>
    cases t with
    | nil => rfl
    | cons y t2 =>
      exfalso
      rw [hf] at hall hndf
      have hx : x = c := hall x (by simp)
      have hy : y = c := hall y (by simp)
      rw [List.nodup_cons] at hndf
      exact hndf.1 (by rw [hx, ← hy]; simp)

theorem filter_length_zero {α : Type} (l : List α) (p : α → Bool)
    (h : ∀ a ∈ l, ¬ p a = true) : (l.filter p).length = 0 := by
  rw [List.length_eq_zero]
  exact List.filter_eq_nil_iff.mpr h

theorem piter_back (byKey : List (Json × Rec)) : ∀ (n : Nat) (j a : Json),
    piter byKey (n + 1) j = some a →
    ∃ c, piter byKey n j = some c ∧ resolvedParent byKey c = some a := by
  intro n
  induction n with
  | zero =>
    intro j a h
    cases hr : resolvedParent byKey j with
    | none => rw [piter_succ, hr] at h; exact Option.noConfusion h
    | some p =>
      rw [piter_succ, hr] at h
      injection h with h
      exact ⟨j, rfl, h ▸ hr⟩
  | succ m ih =>
    intro j a h
    rw [piter_succ] at h
    cases hr : resolvedParent byKey j with
    | none => rw [hr] at h; exact Option.noConfusion h
    | some p =>
      rw [hr] at h
      dsimp only at h
      obtain ⟨c, hc, hca⟩ := ih p a h
      refine ⟨c, ?_, hca⟩
      rw [piter_succ, hr]
      exact hc

theorem piter_pos_source (byKey : List (Json × Rec)) (n : Nat) (j a : Json)
    (hn : 1 ≤ n) (h : piter byKey n j = some a) :
    byKey.any (fun kv => kv.1 = j) = true := by
  obtain ⟨m, rfl⟩ : ∃ m, n = m + 1 := ⟨n - 1, by omega⟩
  rw [piter_succ] at h
  cases hr : resolvedParent byKey j with
  | none => rw [hr] at h; exact Option.noConfusion h
  | some p => exact resolvedParent_source_any byKey j p hr

theorem piter_le_chainLen (byKey : List (Json × Rec)) (hres : resolvable byKey = true) :
    ∀ (n : Nat) (j a : Json), byKey.any (fun kv => kv.1 = j) = true →
      piter byKey n j = some a → n ≤ chainLen byKey j := by
  intro n
  induction n with
  | zero => intro j a _ _; omega
  | succ m ih =>
    intro j a hj h
    rw [piter_succ] at h
    cases hr : resolvedParent byKey j with
    | none => rw [hr] at h; exact Option.noConfusion h
    | some p =>
      rw [hr] at h
      dsimp only at h
      have hp : byKey.any (fun kv => kv.1 = p) = true :=
        resolvedParent_target_any byKey j p hr
      have hle := ih p a hp h
      have hcl := chainLen_child byKey hres j p hr
      omega

theorem isAnc_self (byKey : List (Json × Rec)) (k : Json) : isAnc byKey k k = true := by
  unfold isAnc
  apply List.any_eq_true.mpr
  exact ⟨0, List.mem_range.mpr (by omega), decide_eq_true rfl⟩

theorem isAnc_piter (byKey : List (Json × Rec)) (a j : Json)
    (h : isAnc byKey a j = true) : ∃ n, piter byKey n j = some a := by
  unfold isAnc at h
  obtain ⟨n, hn, hd⟩ := List.any_eq_true.mp h
  exact ⟨n, of_decide_eq_true hd⟩

theorem isAnc_of_piter (byKey : List (Json × Rec)) (hres : resolvable byKey = true)
    (n : Nat) (j a : Json) (hj : byKey.any (fun kv => kv.1 = j) = true)
    (hp : piter byKey n j = some a) : isAnc byKey a j = true := by
  unfold isAnc
  apply List.any_eq_true.mpr
  refine ⟨n, List.mem_range.mpr ?_, decide_eq_true hp⟩
  have h1 := piter_le_chainLen byKey hres n j a hj hp
  have h2 := chainLen_le byKey hres j hj
  omega

theorem resolvable_no_cycle (byKey : List (Json × Rec)) (hres : resolvable byKey = true)
    (k : Json) (hk : byKey.any (fun kv => kv.1 = k) = true) (m : Nat) (hm : 1 ≤ m)
    (hcyc : piter byKey m k = some k) : False := by
  obtain ⟨d, hd⟩ := resolvable_chainLenOpt byKey hres k hk
  obtain ⟨r, hpd, hrr⟩ := chainLenOpt_piter byKey _ k d hd
  have hnone : piter byKey (1 + d) k = none := by
    rw [piter_add, hpd]
    show piter byKey (0 + 1) r = none
    rw [piter_succ, hrr]
  exact piter_terminate_no_cycle byKey k (1 + d) hnone m hm hcyc

theorem child_not_anc (issues : List Rec) (hres : resolvable (indexIssues issues) = true)
    (k c : Json) (hc : c ∈ childrenOf (buildTree issues) k)
    (ha : isAnc (indexIssues issues) c k = true) : False := by
  obtain ⟨n, hp⟩ := isAnc_piter _ _ _ ha
  have hrc : resolvedParent (indexIssues issues) c = some k :=
    (mem_childrenOf_iff issues c k).mp hc
  have hcyc : piter (indexIssues issues) (1 + n) k = some k := by
    rw [piter_add, hp]
    show piter (indexIssues issues) (0 + 1) c = some k
    rw [piter_succ, hrc]
    rfl
  have hk : (indexIssues issues).any (fun kv => kv.1 = k) = true :=
    resolvedParent_target_any _ c k hrc
  exact resolvable_no_cycle _ hres k hk (1 + n) (by omega) hcyc

theorem anc_child_unique_aux (issues : List Rec)
    (hres : resolvable (indexIssues issues) = true)
    (k j c1 c2 : Json) (n1 n2 : Nat) (hle : n1 ≤ n2)
    (hrc1 : resolvedParent (indexIssues issues) c1 = some k)
    (hrc2 : resolvedParent (indexIssues issues) c2 = some k)
    (hp1 : piter (indexIssues issues) n1 j = some c1)
    (hp2 : piter (indexIssues issues) n2 j = some c2) : c1 = c2 := by
  have hsplit : n2 = (n2 - n1) + n1 := by omega
  rw [hsplit, piter_add, hp1] at hp2
  dsimp only at hp2
  cases hm : n2 - n1 with
  | zero =>
    rw [hm] at hp2
    injection hp2 with hp2
  | succ m =>
    rw [hm, piter_succ, hrc1] at hp2
    dsimp only at hp2
    exfalso
    have hcyc : piter (indexIssues issues) (1 + m) k = some k := by
      rw [piter_add, hp2]
      show piter (indexIssues issues) (0 + 1) c2 = some k
      rw [piter_succ, hrc2]
      rfl
    have hk := resolvedParent_target_any _ c1 k hrc1
    exact resolvable_no_cycle _ hres k hk (1 + m) (by omega) hcyc

theorem anc_child_unique (issues : List Rec)
    (hres : resolvable (indexIssues issues) = true) (k j c1 c2 : Json)
    (h1 : c1 ∈ childrenOf (buildTree issues) k) (h2 : c2 ∈ childrenOf (buildTree issues) k)
    (ha1 : isAnc (indexIssues issues) c1 j = true)
    (ha2 : isAnc (indexIssues issues) c2 j = true) : c1 = c2 := by
  obtain ⟨n1, hp1⟩ := isAnc_piter _ _ _ ha1
  obtain ⟨n2, hp2⟩ := isAnc_piter _ _ _ ha2
  have hrc1 := (mem_childrenOf_iff issues c1 k).mp h1
  have hrc2 := (mem_childrenOf_iff issues c2 k).mp h2
  rcases Nat.le_total n1 n2 with hle | hle
  · exact anc_child_unique_aux issues hres k j c1 c2 n1 n2 hle hrc1 hrc2 hp1 hp2
  · exact (anc_child_unique_aux issues hres k j c2 c1 n2 n1 hle hrc2 hrc1 hp2 hp1).symm

theorem child_anc_count (issues : List Rec)
    (hres : resolvable (indexIssues issues) = true) (k j : Json)
    (hk : (indexIssues issues).any (fun kv => kv.1 = k) = true) :
    ((if k = j then 1 else 0) : Nat)
      + ((childrenOf (buildTree issues) k).filter
          (fun c => isAnc (indexIssues issues) c j)).length
      = if isAnc (indexIssues issues) k j = true then 1 else 0 := by
  by_cases hkj : k = j
  · subst hkj
    rw [if_pos rfl, if_pos (isAnc_self _ k)]
    have h0 : ((childrenOf (buildTree issues) k).filter
        (fun c => isAnc (indexIssues issues) c k)).length = 0 := by
      apply filter_length_zero
      intro c hc hanc
      exact child_not_anc issues hres k c hc hanc
    omega
  · rw [if_neg hkj]
    by_cases hanc : isAnc (indexIssues issues) k j = true
    · rw [if_pos hanc]
      obtain ⟨n, hp⟩ := isAnc_piter _ _ _ hanc
      have hn1 : 1 ≤ n := by
        rcases Nat.eq_zero_or_pos n with h0 | h1
        · subst h0
          injection hp with hp
          exact absurd hp.symm hkj
        · omega
      obtain ⟨mm, rfl⟩ : ∃ mm, n = mm + 1 := ⟨n - 1, by omega⟩
      obtain ⟨c, hpc, hrc⟩ := piter_back _ mm j k hp
      have hcmem : c ∈ childrenOf (buildTree issues) k :=
        (mem_childrenOf_iff issues c k).mpr hrc
      have hj : (indexIssues issues).any (fun kv => kv.1 = j) = true :=
        piter_pos_source _ (mm + 1) j k (by omega) hp
      have hanc_c : isAnc (indexIssues issues) c j = true :=
        isAnc_of_piter _ hres mm j c hj hpc
      rw [filter_length_one (childrenOf (buildTree issues) k) _
        (childrenOf_buildTree_nodup issues k) ?uniq c hcmem hanc_c]
      case uniq =>
        intro a hamem hap b hbmem hbp
        exact anc_child_unique issues hres k j a b hamem hbmem hap hbp
    · rw [if_neg hanc]
      have h0 : ((childrenOf (buildTree issues) k).filter
          (fun c => isAnc (indexIssues issues) c j)).length = 0 := by
        apply filter_length_zero
        intro c hcmem hcanc
        apply hanc
        obtain ⟨m, hpm⟩ := isAnc_piter _ _ _ hcanc
        have hrc := (mem_childrenOf_iff issues c k).mp hcmem
        have hk2 : piter (indexIssues issues) (1 + m) j = some k := by
          rw [piter_add, hpm]
          show piter (indexIssues issues) (0 + 1) c = some k
          rw [piter_succ, hrc]
          rfl
        have hj : (indexIssues issues).any (fun kv => kv.1 = j) = true := by
          rcases Nat.eq_zero_or_pos m with hm0 | hm1
          · subst hm0
            injection hpm with hpm
            rw [← hpm] at hrc
            exact resolvedParent_source_any _ j k hrc
          · exact piter_pos_source _ m j c hm1 hpm
        exact isAnc_of_piter _ hres (1 + m) j k hj hk2
      omega


theorem objGet_cons (a1 : String) (a2 : Json) (t : List (String × Json)) (k : String)
    (d : Json) :
    Json.objGet ((a1, a2) :: t) k d = if a1 = k then a2 else Json.objGet t k d := by
  unfold Json.objGet
  rw [List.find?_cons]
  by_cases h : a1 = k
  · simp [h]
  · simp [h]

theorem objGet_filter_children (l : List (String × Json)) (k : String) (d : Json)
    (hk : ¬ k = "children") :
    Json.objGet (l.filter (fun kv => kv.1 ≠ "children")) k d = Json.objGet l k d := by
  induction l with
  | nil => rfl
  | cons a t ih =>
    obtain ⟨a1, a2⟩ := a
    rw [List.filter_cons, objGet_cons]
    by_cases hc : a1 = "children"
    · rw [if_neg (by simp [hc]), ih, if_neg (fun he : a1 = k => hk (he ▸ hc))]
    · rw [if_pos (by simp [hc]), objGet_cons]
      by_cases ha : a1 = k
      · rw [if_pos ha, if_pos ha]
      · rw [if_neg ha, if_neg ha, ih]

theorem objGet_mapReplace_ne (l : List (String × Json)) (k k2 : String) (v d : Json)
    (h : ¬ k2 = k) :
    Json.objGet (l.map (fun kv => if kv.1 = k then (k, v) else kv)) k2 d
      = Json.objGet l k2 d := by
  induction l with
  | nil => rfl
  | cons a t ih =>
    obtain ⟨a1, a2⟩ := a
    simp only [List.map_cons]
    by_cases hc : a1 = k
    · rw [if_pos hc, objGet_cons, objGet_cons]
      have h1 : ¬ k = k2 := fun he => h he.symm
      have h2 : ¬ a1 = k2 := fun he => h (he ▸ hc)
      rw [if_neg h1, if_neg h2, ih]
    · rw [if_neg hc, objGet_cons, objGet_cons]
      by_cases ha : a1 = k2
      · rw [if_pos ha, if_pos ha]
      · rw [if_neg ha, if_neg ha, ih]

theorem objGet_append_single_ne (l : List (String × Json)) (k k2 : String) (v d : Json)
    (h : ¬ k2 = k) :
    Json.objGet (l ++ [(k, v)]) k2 d = Json.objGet l k2 d := by
  induction l with
  | nil =>
    rw [List.nil_append, objGet_cons, if_neg (fun he : k = k2 => h he.symm)]
  | cons a t ih =>
    obtain ⟨a1, a2⟩ := a
    rw [List.cons_append, objGet_cons, objGet_cons]
    by_cases ha : a1 = k2
    · rw [if_pos ha, if_pos ha]
    · rw [if_neg ha, if_neg ha, ih]

theorem objGet_dictSet_ne (l : List (String × Json)) (k k2 : String) (v d : Json)
    (h : ¬ k2 = k) :
    Json.objGet (dictSet l k v) k2 d = Json.objGet l k2 d := by
  unfold dictSet
  by_cases ha : l.any (fun kv => kv.1 = k) = true
  · rw [if_pos ha]
    exact objGet_mapReplace_ne l k k2 v d h
  · rw [if_neg ha]
    exact objGet_append_single_ne l k k2 v d h

theorem recKey_flatRec (r : Rec) (d : Nat) : recKey (flatRec r d) = recKey r := by
  unfold flatRec recKey recGet
  rw [objGet_dictSet_ne _ _ _ _ _ (by decide)]
  exact objGet_filter_children r "key" (.str "") (by decide)

theorem flatOf_eq (g : TreeGraph) (k : Json) (d : Nat) :
    flatOf g k d = flatRec (recordOf g k) d := rfl

theorem recKey_of_alookup_index (issues : List Rec) (k : Json) (r : Rec)
    (h : alookup (indexIssues issues) k = some r) : recKey r = k := by
  rw [indexIssues_alookup] at h
  exact lastMatch_key issues k r h

theorem recordOf_buildTree (issues : List Rec) (k : Json) (r : Rec)
    (h : alookup (indexIssues issues) k = some r) :
    recordOf (buildTree issues) k = r := by
  rw [recordOf_alookup, buildTree_byKey, h]
  rfl

theorem recKey_flatOf_buildTree (issues : List Rec) (k : Json) (d : Nat)
    (hk : (indexIssues issues).any (fun kv => kv.1 = k) = true) :
    recKey (flatOf (buildTree issues) k d) = k := by
  rw [flatOf_eq, recKey_flatRec]
  have hs : (alookup (indexIssues issues) k).isSome = true := by
    rw [alookup_isSome_any]
    exact hk
  cases ha : alookup (indexIssues issues) k with
  | none => rw [ha] at hs; simp at hs
  | some r =>
    rw [recordOf_buildTree issues k r ha]
    exact recKey_of_alookup_index issues k r ha


theorem flattenGo_zero (g : TreeGraph) (depth : Nat) (ks : List Json) :
    flattenGo g 0 depth ks = [] := rfl

theorem flattenGo_nil (g : TreeGraph) (fuel depth : Nat) :
    flattenGo g (fuel + 1) depth [] = [] := rfl

theorem flattenGo_cons (g : TreeGraph) (fuel depth : Nat) (k : Json) (ks : List Json) :
    flattenGo g (fuel + 1) depth (k :: ks) =
      flatOf g k depth ::
        (flattenGo g fuel (depth + 1) (childrenOf g k)
          ++ flattenGo g (fuel + 1) depth ks) := by
  show (k :: ks).flatMap _ = _
  rw [List.flatMap_cons]
  rfl

theorem roots_unique_aux (byKey : List (Json × Rec)) (j a b : Json) (na nb : Nat)
    (hle : na ≤ nb) (hra : resolvedParent byKey a = none)
    (hpa : piter byKey na j = some a) (hpb : piter byKey nb j = some b) : a = b := by
  have hsplit : nb = (nb - na) + na := by omega
  rw [hsplit, piter_add, hpa] at hpb
  dsimp only at hpb
  cases hm : nb - na with
  | zero =>
    rw [hm] at hpb
    injection hpb with hpb
  | succ m =>
    rw [hm, piter_succ, hra] at hpb
    exact Option.noConfusion hpb

theorem roots_anc_count (issues : List Rec)
    (hres : resolvable (indexIssues issues) = true) (j : Json) :
    (((buildTree issues).roots).filter (fun r => isAnc (indexIssues issues) r j)).length
      = if (indexIssues issues).any (fun kv => kv.1 = j) = true then 1 else 0 := by
  by_cases hj : (indexIssues issues).any (fun kv => kv.1 = j) = true
  · rw [if_pos hj]
    obtain ⟨d, hd⟩ := resolvable_chainLenOpt _ hres j hj
    obtain ⟨rt, hprt, hrrt⟩ := chainLenOpt_piter _ _ j d hd
    have hrtany : (indexIssues issues).any (fun kv => kv.1 = rt) = true := by
      rcases Nat.eq_zero_or_pos d with h0 | h1
      · subst h0
        injection hprt with hprt
        rw [← hprt]
        exact hj
      · obtain ⟨m, rfl⟩ : ∃ m, d = m + 1 := ⟨d - 1, by omega⟩
        obtain ⟨c, hpc, hcrt⟩ := piter_back _ m j rt hprt
        exact resolvedParent_target_any _ c rt hcrt
    have hrtroot : rt ∈ (buildTree issues).roots :=
      (mem_roots_iff issues rt).mpr ⟨hrtany, hrrt⟩
    have hanc_rt : isAnc (indexIssues issues) rt j = true :=
      isAnc_of_piter _ hres d j rt hj hprt
    apply filter_length_one _ _ (roots_buildTree_nodup issues) ?uniq rt hrtroot hanc_rt
    case uniq =>
      intro a hamem hap b hbmem hbp
      obtain ⟨na, hpa⟩ := isAnc_piter _ _ _ hap
      obtain ⟨nb, hpb⟩ := isAnc_piter _ _ _ hbp
      have hra := ((mem_roots_iff issues a).mp hamem).2
      have hrb := ((mem_roots_iff issues b).mp hbmem).2
      rcases Nat.le_total na nb with hle | hle
      · exact roots_unique_aux _ j a b na nb hle hra hpa hpb
      · exact (roots_unique_aux _ j b a nb na hle hrb hpb hpa).symm
  · rw [if_neg hj]
    apply filter_length_zero
    intro r hrmem hranc
    obtain ⟨n, hp⟩ := isAnc_piter _ _ _ hranc
    rcases Nat.eq_zero_or_pos n with h0 | h1
    · subst h0
      injection hp with hp
      apply hj
      rw [hp]
      exact ((mem_roots_iff issues r).mp hrmem).1
    · exact hj (piter_pos_source _ n j r h1 hp)

theorem flattenGo_content (issues : List Rec)
    (hres : resolvable (indexIssues issues) = true) :
    ∀ (fuel depth : Nat) (ks : List Json),
      (∀ k ∈ ks, (indexIssues issues).any (fun kv => kv.1 = k) = true ∧
        chainLen (indexIssues issues) k = depth) →
      ∀ e ∈ flattenGo (buildTree issues) fuel depth ks,
        ∃ k, (indexIssues issues).any (fun kv => kv.1 = k) = true ∧
          e = flatOf (buildTree issues) k (chainLen (indexIssues issues) k) := by
  intro fuel
  induction fuel with
  | zero =>
    intro depth ks hks e he
    rw [flattenGo_zero] at he
    simp at he
  | succ n ihf =>
    intro depth ks
    induction ks with
    | nil =>
      intro hks e he
      rw [flattenGo_nil] at he
      simp at he
    | cons k ks ihl =>
      intro hks e he
      rw [flattenGo_cons] at he
      rcases List.mem_cons.mp he with he1 | he2
      · obtain ⟨hkany, hkd⟩ := hks k (List.mem_cons_self k ks)
        refine ⟨k, hkany, ?_⟩
        rw [he1, hkd]
      · rcases List.mem_append.mp he2 with hea | heb
        · refine ihf (depth + 1) (childrenOf (buildTree issues) k) ?_ e hea
          intro c hc
          have hrc := (mem_childrenOf_iff issues c k).mp hc
          refine ⟨resolvedParent_source_any _ c k hrc, ?_⟩
          rw [chainLen_child _ hres c k hrc, (hks k (List.mem_cons_self k ks)).2]
        · exact ihl (fun k2 hk2 => hks k2 (List.mem_cons_of_mem k hk2)) e heb

theorem flattenGo_countP (issues : List Rec)
    (hres : resolvable (indexIssues issues) = true) (j : Json) :
    ∀ (fuel depth : Nat) (ks : List Json),
      (∀ k ∈ ks, (indexIssues issues).any (fun kv => kv.1 = k) = true ∧
        chainLen (indexIssues issues) k = depth) →
      (indexIssues issues).length + 1 ≤ fuel + depth →
      (flattenGo (buildTree issues) fuel depth ks).countP
          (fun e => decide (recKey e = j))
        = ks.countP (fun k => isAnc (indexIssues issues) k j) := by
  intro fuel
  induction fuel with
  | zero =>
    intro depth ks hks hfuel
    cases ks with
    | nil =>
      rw [flattenGo_zero]
      rfl
    | cons k ks =>
      exfalso
      obtain ⟨hkany, hkd⟩ := hks k (List.mem_cons_self k ks)
      have := chainLen_le _ hres k hkany
      omega
  | succ n ihf =>
    intro depth ks
    induction ks with
    | nil =>
      intro hks hfuel
      rw [flattenGo_nil]
      rfl
    | cons k ks ihl =>
      intro hks hfuel
      obtain ⟨hkany, hkd⟩ := hks k (List.mem_cons_self k ks)
      rw [flattenGo_cons, List.countP_cons, List.countP_append, List.countP_cons]
      have hA : (flattenGo (buildTree issues) n (depth + 1)
            (childrenOf (buildTree issues) k)).countP (fun e => decide (recKey e = j))
          = (childrenOf (buildTree issues) k).countP
              (fun c => isAnc (indexIssues issues) c j) := by
        refine ihf (depth + 1) (childrenOf (buildTree issues) k) ?_ (by omega)
        intro c hc
        have hrc := (mem_childrenOf_iff issues c k).mp hc
        refine ⟨resolvedParent_source_any _ c k hrc, ?_⟩
        rw [chainLen_child _ hres c k hrc, hkd]
      have hB := ihl (fun k2 hk2 => hks k2 (List.mem_cons_of_mem k hk2)) hfuel
      rw [hA, hB]
      have hkey : recKey (flatOf (buildTree issues) k depth) = k :=
        recKey_flatOf_buildTree issues k depth hkany
      rw [hkey]
      have hcac := child_anc_count issues hres k j hkany
      rw [List.countP_eq_length_filter]
      have hdec : (if decide (k = j) = true then (1 : Nat) else 0)
          = if k = j then 1 else 0 := by
        by_cases hkj : k = j
        · rw [if_pos hkj, if_pos (decide_eq_true hkj)]
        · rw [if_neg hkj, if_neg (by simp [hkj])]
      rw [hdec]
      set x := (List.filter (fun c => isAnc (indexIssues issues) c j)
        (childrenOf (buildTree issues) k)).length with hx
      set y := List.countP (fun k => isAnc (indexIssues issues) k j) ks with hy
      by_cases hanc : isAnc (indexIssues issues) k j = true
      · rw [if_pos hanc] at hcac ⊢
        by_cases hkj : k = j
        · rw [if_pos hkj] at hcac ⊢
          omega
        · rw [if_neg hkj] at hcac ⊢
          omega
      · rw [if_neg hanc] at hcac ⊢
        by_cases hkj : k = j
        · rw [if_pos hkj] at hcac ⊢
          omega
        · rw [if_neg hkj] at hcac ⊢
          omega


theorem PF_cons (byKey : List (Json × Rec)) (pre : List Rec) (e : Rec) (rest : List Rec) :
    PF byKey pre (e :: rest) ↔
      ((∀ p, resolvedParent byKey (recKey e) = some p → ∃ e₂ ∈ pre, recKey e₂ = p)
        ∧ PF byKey (pre ++ [e]) rest) := Iff.rfl

theorem PF_mono (byKey : List (Json × Rec)) :
    ∀ (out pre pre' : List Rec), (∀ x ∈ pre, x ∈ pre') →
      PF byKey pre out → PF byKey pre' out := by
  intro out
  induction out with
  | nil => intro pre pre' _ _; trivial
  | cons e rest ih =>
    intro pre pre' hsub h
    rw [PF_cons] at h ⊢
    obtain ⟨h1, h2⟩ := h
    refine ⟨?_, ih (pre ++ [e]) (pre' ++ [e]) ?_ h2⟩
    · intro p hp
      obtain ⟨e2, he2, hk⟩ := h1 p hp
      exact ⟨e2, hsub e2 he2, hk⟩
    · intro x hx
      rcases List.mem_append.mp hx with hxa | hxb
      · exact List.mem_append.mpr (Or.inl (hsub x hxa))
      · exact List.mem_append.mpr (Or.inr hxb)

theorem PF_append (byKey : List (Json × Rec)) :
    ∀ (A B pre : List Rec), PF byKey pre A → PF byKey (pre ++ A) B →
      PF byKey pre (A ++ B) := by
  intro A
  induction A with
  | nil =>
    intro B pre _ hB
    rw [List.nil_append]
    exact PF_mono byKey B (pre ++ []) pre (by simp) hB
  | cons e A ih =>
    intro B pre hA hB
    rw [PF_cons] at hA
    obtain ⟨h1, h2⟩ := hA
    rw [List.cons_append, PF_cons]
    refine ⟨h1, ih B (pre ++ [e]) h2 ?_⟩
    have hassoc : pre ++ e :: A = (pre ++ [e]) ++ A := by simp
    rw [hassoc] at hB
    exact hB

theorem PF_parentsFirst_aux (byKey : List (Json × Rec)) :
    ∀ (l₁ out pre : List Rec), PF byKey pre out →
      ∀ (e : Rec) (l₂ : List Rec), out = l₁ ++ e :: l₂ →
      ∀ p, resolvedParent byKey (recKey e) = some p →
        ∃ e₂ ∈ pre ++ l₁, recKey e₂ = p := by
  intro l₁
  induction l₁ with
  | nil =>
    intro out pre hpf e l₂ hout p hp
    subst hout
    rw [List.nil_append] at hpf
    rw [PF_cons] at hpf
    obtain ⟨e2, he2, hk⟩ := hpf.1 p hp
    exact ⟨e2, by simp [he2], hk⟩
  | cons x l₁ ih =>
    intro out pre hpf e l₂ hout p hp
    subst hout
    rw [List.cons_append, PF_cons] at hpf
    obtain ⟨e2, he2, hk⟩ := ih (l₁ ++ e :: l₂) (pre ++ [x]) hpf.2 e l₂ rfl p hp
    refine ⟨e2, ?_, hk⟩
    have hassoc : pre ++ x :: l₁ = (pre ++ [x]) ++ l₁ := by simp
    rw [hassoc]
    exact he2

theorem PF_ParentsFirst (byKey : List (Json × Rec)) (out : List Rec)
    (h : PF byKey [] out) : ParentsFirst byKey out := by
  intro l₁ e l₂ hsplit p hp
  obtain ⟨e2, he2, hk⟩ := PF_parentsFirst_aux byKey l₁ out [] h e l₂ hsplit p hp
  exact ⟨e2, by simpa using he2, hk⟩

theorem flattenGo_PF (issues : List Rec) :
    ∀ (fuel depth : Nat) (ks : List Json) (pre : List Rec),
      (∀ k ∈ ks, (indexIssues issues).any (fun kv => kv.1 = k) = true ∧
        ∀ p, resolvedParent (indexIssues issues) k = some p →
          ∃ e₂ ∈ pre, recKey e₂ = p) →
      PF (indexIssues issues) pre (flattenGo (buildTree issues) fuel depth ks) := by
  intro fuel
  induction fuel with
  | zero =>
    intro depth ks pre _
    rw [flattenGo_zero]
    trivial
  | succ n ihf =>
    intro depth ks
    induction ks with
    | nil =>
      intro pre _
      rw [flattenGo_nil]
      trivial
    | cons k ks ihl =>
      intro pre hks
      obtain ⟨hkany, hkpar⟩ := hks k (List.mem_cons_self k ks)
      rw [flattenGo_cons, PF_cons]
      have hkey : recKey (flatOf (buildTree issues) k depth) = k :=
        recKey_flatOf_buildTree issues k depth hkany
      refine ⟨?_, ?_⟩
      · intro p hp
        rw [hkey] at hp
        exact hkpar p hp
      · apply PF_append
        · apply ihf (depth + 1) (childrenOf (buildTree issues) k)
          intro c hc
          have hrc := (mem_childrenOf_iff issues c k).mp hc
          refine ⟨resolvedParent_source_any _ c k hrc, ?_⟩
          intro p hp
          rw [hrc] at hp
          injection hp with hp
          refine ⟨flatOf (buildTree issues) k depth, by simp, ?_⟩
          rw [hkey]
          exact hp
        · apply ihl
          intro k2 hk2
          obtain ⟨h1, h2⟩ := hks k2 (List.mem_cons_of_mem k hk2)
          refine ⟨h1, ?_⟩
          intro p hp
          obtain ⟨e2, he2, hk2b⟩ := h2 p hp
          refine ⟨e2, ?_, hk2b⟩
          rw [List.mem_append]
          exact Or.inl (List.mem_append.mpr (Or.inl he2))


theorem countP_congr_mem {α : Type} : ∀ (l : List α) (p q : α → Bool),
    (∀ a ∈ l, p a = q a) → l.countP p = l.countP q := by
  intro l
  induction l with
  | nil => intro p q _; rfl
  | cons x t ih =>
    intro p q h
    rw [List.countP_cons, List.countP_cons,
      ih p q (fun a ha => h a (List.mem_cons_of_mem x ha)), h x (List.mem_cons_self x t)]

theorem roots_cond (issues : List Rec) (k : Json) (hk : k ∈ (buildTree issues).roots) :
    (indexIssues issues).any (fun kv => kv.1 = k) = true ∧
    chainLen (indexIssues issues) k = 0 := by
  obtain ⟨hany, hrp⟩ := (mem_roots_iff issues k).mp hk
  exact ⟨hany, chainLen_root _ k hrp⟩

theorem flattenTree_countP (issues : List Rec)
    (hres : resolvable (indexIssues issues) = true) (j : Json) :
    (flattenTree (buildTree issues)).countP (fun e => decide (recKey e = j))
      = if (indexIssues issues).any (fun kv => kv.1 = j) = true then 1 else 0 := by
  unfold flattenTree
  rw [buildTree_byKey]
  rw [flattenGo_countP issues hres j ((indexIssues issues).length + 1) 0
    (buildTree issues).roots (fun k hk => roots_cond issues k hk) (by omega)]
  rw [List.countP_eq_length_filter]
  exact roots_anc_count issues hres j

theorem flattenTree_content (issues : List Rec)
    (hres : resolvable (indexIssues issues) = true) :
    ∀ e ∈ flattenTree (buildTree issues),
      ∃ k, (indexIssues issues).any (fun kv => kv.1 = k) = true ∧
        e = flatOf (buildTree issues) k (chainLen (indexIssues issues) k) := by
  intro e he
  unfold flattenTree at he
  exact flattenGo_content issues hres _ 0 _ (fun k hk => roots_cond issues k hk) e he

theorem flattenTree_PF (issues : List Rec) :
    ParentsFirst (indexIssues issues) (flattenTree (buildTree issues)) := by
  apply PF_ParentsFirst
  unfold flattenTree
  apply flattenGo_PF
  intro k hk
  obtain ⟨hany, hrp⟩ := (mem_roots_iff issues k).mp hk
  refine ⟨hany, ?_⟩
  intro p hp
  rw [hrp] at hp
  exact Option.noConfusion hp

theorem nodup_count_keys (byKey : List (Json × Rec))
    (hnd : (byKey.map Prod.fst).Nodup) (j : Json) :
    List.countP (fun x => decide (x = j)) (byKey.map Prod.fst)
      = if byKey.any (fun kv => kv.1 = j) = true then 1 else 0 := by
  by_cases h : byKey.any (fun kv => kv.1 = j) = true
  · rw [if_pos h]
    obtain ⟨kv, hkv, hj⟩ := List.any_eq_true.mp h
    rw [List.countP_eq_length_filter]
    apply filter_length_one _ _ hnd ?uniq j
      (List.mem_map.mpr ⟨kv, hkv, of_decide_eq_true hj⟩) (decide_eq_true rfl)
    case uniq =>
      intro a _ hpa b _ hpb
      have ha : a = j := of_decide_eq_true hpa
      have hb : b = j := of_decide_eq_true hpb
      rw [ha, hb]
  · rw [if_neg h]
    refine List.countP_eq_zero.mpr ?_
    intro a ha hpa
    apply h
    have haj : a = j := of_decide_eq_true hpa
    obtain ⟨kv, hkv, hfst⟩ := List.mem_map.mp ha
    exact List.any_eq_true.mpr ⟨kv, hkv, decide_eq_true (by rw [hfst, haj])⟩

theorem flattenTree_keys_perm (issues : List Rec)
    (hres : resolvable (indexIssues issues) = true) :
    List.Perm ((flattenTree (buildTree issues)).map recKey)
      ((indexIssues issues).map Prod.fst) := by
  rw [List.perm_iff_count]
  intro j
  show List.countP (fun x => decide (x = j)) ((flattenTree (buildTree issues)).map recKey)
    = List.countP (fun x => decide (x = j)) ((indexIssues issues).map Prod.fst)
  rw [List.countP_map]
  rw [show ((fun x => decide (x = j)) ∘ recKey)
    = (fun e => decide (recKey e = j)) from rfl]
  rw [flattenTree_countP issues hres j,
    nodup_count_keys (indexIssues issues) (indexIssues_keys_nodup issues) j]

theorem flattenTree_perm (issues : List Rec) (hnd : (issues.map recKey).Nodup)
    (hres : resolvable (indexIssues issues) = true) :
    List.Perm (flattenTree (buildTree issues))
      (issues.map (fun r => flatRec r (chainLen (indexIssues issues) (recKey r)))) := by
  have htk : (issues.map (fun r => flatRec r (chainLen (indexIssues issues) (recKey r)))).map
      recKey = issues.map recKey := by
    rw [List.map_map]
    apply List.map_congr_left
    intro r _
    exact recKey_flatRec r _
  have htnd : (issues.map
      (fun r => flatRec r (chainLen (indexIssues issues) (recKey r)))).Nodup := by
    have hx : ((issues.map
        (fun r => flatRec r (chainLen (indexIssues issues) (recKey r)))).map
          recKey).Nodup := by
      rw [htk]
      exact hnd
    exact hx.of_map
  have hsub : ∀ e ∈ issues.map
      (fun r => flatRec r (chainLen (indexIssues issues) (recKey r))),
      e ∈ flattenTree (buildTree issues) := by
    intro e he
    obtain ⟨r, hr, rfl⟩ := List.mem_map.mp he
    have hal : alookup (indexIssues issues) (recKey r) = some r := by
      rw [indexIssues_alookup]
      exact lastMatch_nodup issues hnd r hr
    have hany : (indexIssues issues).any (fun kv => kv.1 = recKey r) = true := by
      rw [← alookup_isSome_any, hal]
      rfl
    have hcnt := flattenTree_countP issues hres (recKey r)
    rw [if_pos hany] at hcnt
    have hpos : 0 < (flattenTree (buildTree issues)).countP
        (fun e => decide (recKey e = recKey r)) := by
      rw [hcnt]
      omega
    obtain ⟨e2, he2, hp2⟩ := List.countP_pos.mp hpos
    obtain ⟨k, hkany, hke⟩ := flattenTree_content issues hres e2 he2
    have hk2 : recKey e2 = k := by
      rw [hke]
      exact recKey_flatOf_buildTree issues k _ hkany
    have hkr : k = recKey r := by
      rw [← hk2]
      exact of_decide_eq_true hp2
    rw [hkr] at hke
    have hrec : recordOf (buildTree issues) (recKey r) = r :=
      recordOf_buildTree issues (recKey r) r hal
    rw [flatOf_eq, hrec] at hke
    rw [← hke]
    exact he2
  have hlen : (flattenTree (buildTree issues)).length = issues.length := by
    have h1 := (flattenTree_keys_perm issues hres).length_eq
    rw [List.length_map, List.length_map] at h1
    rw [h1, indexIssues_eq_map issues hnd, List.length_map]
  have hsp : List.Subperm (issues.map
      (fun r => flatRec r (chainLen (indexIssues issues) (recKey r))))
      (flattenTree (buildTree issues)) :=
    List.subperm_of_subset htnd hsub
  have hperm := hsp.perm_of_length_le (by rw [hlen, List.length_map])
  exact hperm.symm


/-- C2 is refuted on duplicate keys: in a two-record input sharing key
"DUP-1", the flattened tree holds only the later record — the earlier input
record (whose resolvable parent chain has length 0) is absent, so the
round trip does not preserve every input record exactly once. -/
theorem claim_C2_counterexample :
    [("key", Json.str "DUP-1"), ("n", Json.num 1)] ∈ treeSampleDup
    ∧ flattenTree (buildTree treeSampleDup)
        = [flatRec [("key", Json.str "DUP-1"), ("n", Json.num 2)] 0]
    ∧ ¬ flatRec [("key", Json.str "DUP-1"), ("n", Json.num 1)] 0
        ∈ flattenTree (buildTree treeSampleDup) :=
  ⟨List.mem_cons_self _ _, rfl, by decide⟩

/-- C2 (amended): when the records carry string keys, the keys are pairwise
distinct, and every parent chain resolves within the dataset,
`flatten_tree(build_tree(records))` is a permutation of the input records —
each appearing exactly once, with any `children` field removed and `_depth`
set to the length of its resolvable parent chain — and every emitted record
comes after the record of its resolved parent. -/
theorem claim_C2_amended (issues : List Rec) (hkeys : strKeys issues = true)
    (hnd : (issues.map recKey).Nodup)
    (hres : resolvable (indexIssues issues) = true) :
    List.Perm (flattenTree (buildTree issues))
      (issues.map (fun r => flatRec r (chainLen (indexIssues issues) (recKey r))))
    ∧ ParentsFirst (indexIssues issues) (flattenTree (buildTree issues)) :=
  ⟨flattenTree_perm issues hnd hres, flattenTree_PF issues⟩

/-- Witness for the amended C2 at a concrete parent/child input. -/
theorem claim_C2_witness :
    strKeys treeSampleAB = true
    ∧ (treeSampleAB.map recKey).Nodup
    ∧ resolvable (indexIssues treeSampleAB) = true
    ∧ (List.Perm (flattenTree (buildTree treeSampleAB))
        (treeSampleAB.map
          (fun r => flatRec r (chainLen (indexIssues treeSampleAB) (recKey r))))
      ∧ ParentsFirst (indexIssues treeSampleAB) (flattenTree (buildTree treeSampleAB))) :=
  ⟨rfl, by decide, rfl, claim_C2_amended treeSampleAB rfl (by decide) rfl⟩

/-- C3: for every input whose records carry string keys (true of normalizer
output; Python raises `TypeError` when sorting mixed key types), the output
of `build_tree` is a forest — no node reachable from the returned roots can
reach itself through `children` links — the root list is sorted ascending by
key, and every node's children list is sorted ascending by key. -/
theorem claim_C3 (issues : List Rec) (hkeys : strKeys issues = true) :
    ((buildTree issues).roots).Pairwise (fun a b => keyLe a b = true)
    ∧ (∀ k : Json, (childrenOf (buildTree issues) k).Pairwise
        (fun a b => keyLe a b = true))
    ∧ (∀ k : Json, Reachable (buildTree issues) k →
        ¬ ChildPath (buildTree issues) k k) := by
  refine ⟨?_, ?_, ?_⟩
  · rw [buildTree_roots]
    exact isort_sorted keyLe keyLe_total keyLe_trans _
  · intro k
    rw [buildTree_childrenOf]
    by_cases h : (indexIssues issues).any (fun kv => kv.1 = k) = true
    · rw [if_pos h]
      exact isort_sorted keyLe keyLe_total keyLe_trans _
    · rw [if_neg h]
      exact List.Pairwise.nil
  · intro k hreach hcyc
    exact reachable_acyclic issues k hreach hcyc

/-- Witness for C3 at a concrete parent/child input. -/
theorem claim_C3_witness :
    strKeys treeSampleAB = true
    ∧ (((buildTree treeSampleAB).roots).Pairwise (fun a b => keyLe a b = true)
      ∧ (∀ k : Json, (childrenOf (buildTree treeSampleAB) k).Pairwise
          (fun a b => keyLe a b = true))
      ∧ (∀ k : Json, Reachable (buildTree treeSampleAB) k →
          ¬ ChildPath (buildTree treeSampleAB) k k)) :=
  ⟨rfl, claim_C3 treeSampleAB rfl⟩

/-- C8 is refuted when the kept (later) duplicate has an unresolvable parent
chain: two records share key "DUP-1", the later one naming itself as parent;
`build_tree` attaches that node under itself, so the returned forest holds
zero nodes with that key instead of exactly one. -/
theorem claim_C8_counterexample :
    recKey [("key", Json.str "DUP-1"), ("summary", Json.str "first")]
        = recKey [("key", Json.str "DUP-1"),
            ("parent", Json.obj [("key", Json.str "DUP-1")])]
    ∧ flattenTree (buildTree
        [[("key", Json.str "DUP-1"), ("summary", Json.str "first")],
         [("key", Json.str "DUP-1"),
          ("parent", Json.obj [("key", Json.str "DUP-1")])]]) = [] :=
  ⟨rfl, rfl⟩

/-- C8 (amended): the `by_key` index of `build_tree` keeps the later
occurrence of each duplicated key — the node stored for `k` is the last
input record with that key — and when every parent chain resolves within
the dataset the flattened forest carries exactly one record for `k`, with
the later record's fields (minus `children`, plus `_depth`); an unresolvable
chain can instead drop the key from the forest entirely. -/
theorem claim_C8_amended (issues : List Rec) (k : Json) (r : Rec)
    (hlast : lastMatch issues k = some r)
    (hres : resolvable (indexIssues issues) = true) :
    alookup ((buildTree issues).byKey) k = some r
    ∧ (flattenTree (buildTree issues)).filter (fun e => decide (recKey e = k))
        = [flatRec r (chainLen (indexIssues issues) k)] := by
  have h1 : alookup ((buildTree issues).byKey) k = some r := by
    rw [buildTree_byKey, indexIssues_alookup]
    exact hlast
  refine ⟨h1, ?_⟩
  have hany : (indexIssues issues).any (fun kv => kv.1 = k) = true := by
    rw [← alookup_isSome_any, indexIssues_alookup, hlast]
    rfl
  have hcnt := flattenTree_countP issues hres k
  rw [if_pos hany, List.countP_eq_length_filter] at hcnt
  cases hf : (flattenTree (buildTree issues)).filter (fun e => decide (recKey e = k)) with
  | nil =>
    rw [hf] at hcnt
    simp at hcnt
  | cons e t =>
    cases t with
    | cons e2 t2 =>
      rw [hf] at hcnt
      simp at hcnt
    | nil =>
      have hemem : e ∈ (flattenTree (buildTree issues)).filter
          (fun e => decide (recKey e = k)) := by
        rw [hf]
        simp
      obtain ⟨heo, hek⟩ := List.mem_filter.mp hemem
      obtain ⟨k2, hk2any, hke⟩ := flattenTree_content issues hres e heo
      have hk2 : recKey e = k2 := by
        rw [hke]
        exact recKey_flatOf_buildTree issues k2 _ hk2any
      have hkk : k2 = k := by
        rw [← hk2]
        exact of_decide_eq_true hek
      subst hkk
      have hrec : recordOf (buildTree issues) k2 = r := by
        rw [recordOf_alookup, buildTree_byKey, indexIssues_alookup, hlast]
        rfl
      congr 1
      rw [hke, flatOf_eq, hrec]

/-- Witness for the amended C8 at a concrete duplicate-key input. -/
theorem claim_C8_witness :
    lastMatch treeSampleDup (Json.str "DUP-1")
        = some [("key", Json.str "DUP-1"), ("n", Json.num 2)]
    ∧ resolvable (indexIssues treeSampleDup) = true
    ∧ (alookup ((buildTree treeSampleDup).byKey) (Json.str "DUP-1")
          = some [("key", Json.str "DUP-1"), ("n", Json.num 2)]
      ∧ (flattenTree (buildTree treeSampleDup)).filter
            (fun e => decide (recKey e = Json.str "DUP-1"))
          = [flatRec [("key", Json.str "DUP-1"), ("n", Json.num 2)]
              (chainLen (indexIssues treeSampleDup) (Json.str "DUP-1"))]) :=
  ⟨rfl, rfl, claim_C8_amended treeSampleDup (Json.str "DUP-1") _ rfl rfl⟩

end TaskForge
